import Mathlib

/-!
Verification of the natural-language specification of the `drupal_parser`
repository (file `drupal_parser.py`) against a shallow embedding of its code.

The embedding follows the Python source line by line.  Machine-independent
collaborators that the specification declares out of scope (the HTTP
transport, the hashlib digest, the address/email/phone regex vocabulary and
the stdlib `urljoin`) are passed in as explicit function parameters; the
stdlib `urlparse` / string algorithms that the claims do depend on are
embedded in full.
-/

set_option maxHeartbeats 1000000
set_option maxRecDepth 100000

namespace DrupalSite

/-! ## Basic character and string helpers (CPython semantics, ASCII model) -/

/-- Python whitespace characters (`str.strip`, `\s` on ASCII text). -/
def isPyWs (c : Char) : Bool :=
  c = ' ' || c = '\t' || c = '\n' || c = '\r' || c = '\x0b' || c = '\x0c'

/-- ASCII lowercase range test. -/
def isAsciiLower (c : Char) : Bool := 'a' ≤ c && c ≤ 'z'

/-- ASCII uppercase range test. -/
def isAsciiUpper (c : Char) : Bool := 'A' ≤ c && c ≤ 'Z'

/-- ASCII letter test (CPython `str.isascii() and str.isalpha()`). -/
def isAsciiAlpha (c : Char) : Bool := isAsciiLower c || isAsciiUpper c

/-- ASCII digit test. -/
def isAsciiDigit (c : Char) : Bool := '0' ≤ c && c ≤ '9'

/-- `str.lower` on one ASCII character (explicit table keeps proofs elementary). -/
def lowerChar (c : Char) : Char :=
  match c with
  | 'A' => 'a' | 'B' => 'b' | 'C' => 'c' | 'D' => 'd' | 'E' => 'e' | 'F' => 'f'
  | 'G' => 'g' | 'H' => 'h' | 'I' => 'i' | 'J' => 'j' | 'K' => 'k' | 'L' => 'l'
  | 'M' => 'm' | 'N' => 'n' | 'O' => 'o' | 'P' => 'p' | 'Q' => 'q' | 'R' => 'r'
  | 'S' => 's' | 'T' => 't' | 'U' => 'u' | 'V' => 'v' | 'W' => 'w' | 'X' => 'x'
  | 'Y' => 'y' | 'Z' => 'z'
  | c => c

/-- `str.upper` on one ASCII character. -/
def upperChar (c : Char) : Char :=
  match c with
  | 'a' => 'A' | 'b' => 'B' | 'c' => 'C' | 'd' => 'D' | 'e' => 'E' | 'f' => 'F'
  | 'g' => 'G' | 'h' => 'H' | 'i' => 'I' | 'j' => 'J' | 'k' => 'K' | 'l' => 'L'
  | 'm' => 'M' | 'n' => 'N' | 'o' => 'O' | 'p' => 'P' | 'q' => 'Q' | 'r' => 'R'
  | 's' => 'S' | 't' => 'T' | 'u' => 'U' | 'v' => 'V' | 'w' => 'W' | 'x' => 'X'
  | 'y' => 'Y' | 'z' => 'Z'
  | c => c

def lowerL (l : List Char) : List Char := l.map lowerChar

def ofChars (l : List Char) : String := String.mk l

def lowerStr (s : String) : String := ofChars (lowerL s.data)

/-- `str.strip()`: strip Python whitespace from both ends. -/
def pyStripL (l : List Char) : List Char :=
  ((l.dropWhile isPyWs).reverse.dropWhile isPyWs).reverse

def pyStrip (s : String) : String := ofChars (pyStripL s.data)

/-- `str.rstrip("/")`: drop every trailing slash. -/
def rstripSlashL (l : List Char) : List Char :=
  (l.reverse.dropWhile (· = '/')).reverse

/-- `hay.startswith(pfx)`. -/
def startsL : List Char → List Char → Bool
  | _, [] => true
  | [], _ :: _ => false
  | h :: hs, p :: ps => h = p && startsL hs ps

/-- Substring test (`needle in haystack` in Python). -/
def containsL : List Char → List Char → Bool
  | [], needle => needle.isEmpty
  | h :: t, needle => startsL (h :: t) needle || containsL t needle

def containsStr (hay needle : String) : Bool := containsL hay.data needle.data

def startsStr (hay pfx : String) : Bool := startsL hay.data pfx.data

/-- `hay.endswith(sfx)`. -/
def endsStr (hay sfx : String) : Bool := startsL hay.data.reverse sfx.data.reverse

/-! ## CPython `urllib.parse.urlsplit` / `urlparse` model

Follows CPython 3.11 `urllib/parse.py`: unsafe bytes (tab, CR, LF) are
removed, the scheme is split at the first `:` when the part before it is a
non-empty run of scheme characters starting with an ASCII letter (and is
lower-cased), the netloc is split after a leading `//` and runs until the
first of `/ ? #`, the fragment is split at the first `#`, the query at the
first `?`, and `urlparse` additionally splits path parameters at the first
`;` at or after the last `/` of the path (or the first `;` anywhere when
the path has no `/`). -/

/-- Valid scheme characters (CPython `scheme_chars`). -/
def schemeChar (c : Char) : Bool :=
  isAsciiAlpha c || isAsciiDigit c || c = '+' || c = '-' || c = '.'

def isCtl (c : Char) : Bool := c = '\t' || c = '\r' || c = '\n'

def stripCtl (l : List Char) : List Char := l.filter (fun c => !isCtl c)

/-- Split a list at the first occurrence of `c`; `none` if absent.
The first component never contains `c`; the delimiter is dropped. -/
def splitAtChar (c : Char) : List Char → Option (List Char × List Char)
  | [] => none
  | x :: xs =>
    if x = c then some ([], xs)
    else (splitAtChar c xs).map (fun p => (x :: p.1, p.2))

/-- CPython's acceptance test for the text before the first `:`: non-empty
(`i > 0`), first character an ASCII letter, rest scheme characters. -/
def schemeOk (before : List Char) : Bool :=
  match before with
  | [] => false
  | b0 :: brest => isAsciiAlpha b0 && brest.all schemeChar

/-- Scheme detection: CPython `urlsplit` lines handling `url.find(':')`. -/
def schemeSplit (cs : List Char) : List Char × List Char :=
  match splitAtChar ':' cs with
  | none => ([], cs)
  | some (before, after) =>
    if schemeOk before then (lowerL before, after) else ([], cs)

def netlocDelim (c : Char) : Bool := c = '/' || c = '?' || c = '#'

/-- Netloc detection: CPython `_splitnetloc` after a leading `//`
(`url[:2] == '//'`). -/
def netlocSplit (cs : List Char) : List Char × List Char :=
  if startsL cs ['/', '/'] then
    ((cs.drop 2).takeWhile (fun c => !netlocDelim c),
     (cs.drop 2).dropWhile (fun c => !netlocDelim c))
  else ([], cs)

/-- Split at the first occurrence of `c`, keeping everything when `c` is
absent (the shape of the fragment and query splits in `urlsplit`). -/
def splitKeep (c : Char) (cs : List Char) : List Char × List Char :=
  match splitAtChar c cs with
  | none => (cs, [])
  | some (a, b) => (a, b)

/-- `urlparse` parameter split: `_splitparams` (a `;` is searched only at or
after the position of the last `/`; when the path has no `/` the first `;`
anywhere splits). -/
def paramsSplit (cs : List Char) : List Char × List Char :=
  if '/' ∈ cs then
    match splitAtChar ';' ((cs.reverse.takeWhile (fun c => !(c = '/'))).reverse) with
    | none => (cs, [])
    | some (x, y) => ((cs.reverse.dropWhile (fun c => !(c = '/'))).reverse ++ x, y)
  else
    match splitAtChar ';' cs with
    | none => (cs, [])
    | some (x, y) => (x, y)

structure UrlParts where
  scheme : List Char
  netloc : List Char
  path : List Char
  params : List Char
  query : List Char
  fragment : List Char
deriving DecidableEq, Repr

/-- Model of `urllib.parse.urlparse`: remove unsafe bytes, then split
scheme, netloc, fragment, query and path parameters in CPython's order. -/
def urlparse (s : String) : UrlParts :=
  ⟨(schemeSplit (stripCtl s.data)).1,
   (netlocSplit (schemeSplit (stripCtl s.data)).2).1,
   (paramsSplit (splitKeep '?' (splitKeep '#'
     (netlocSplit (schemeSplit (stripCtl s.data)).2).2).1).1).1,
   (paramsSplit (splitKeep '?' (splitKeep '#'
     (netlocSplit (schemeSplit (stripCtl s.data)).2).2).1).1).2,
   (splitKeep '?' (splitKeep '#' (netlocSplit (schemeSplit (stripCtl s.data)).2).2).1).2,
   (splitKeep '#' (netlocSplit (schemeSplit (stripCtl s.data)).2).2).2⟩

/-- `DrupalParser.normalize_url` (drupal_parser.py lines 38-46):
`clean = f"{scheme}://{netloc}{path}"`, with every trailing `/` stripped
unless the path has length at most one. -/
def normalize_url (url : String) : String :=
  ofChars
    (if (urlparse url).path.length > 1 then
      rstripSlashL ((urlparse url).scheme ++ ':' :: '/' :: '/' ::
        ((urlparse url).netloc ++ (urlparse url).path))
    else
      (urlparse url).scheme ++ ':' :: '/' :: '/' ::
        ((urlparse url).netloc ++ (urlparse url).path))

/-- `DrupalParser.is_internal_link` (lines 48-55); `domain` is
`urlparse(self.base_url).netloc`. -/
def is_internal_link (domain : String) (url : String) : Bool :=
  if (urlparse url).netloc = [] then true
  else (urlparse url).netloc = domain.data

/-- The 26 ASCII uppercase letters (used to case over `lowerChar`). -/
def upperList : List Char :=
  ['A','B','C','D','E','F','G','H','I','J','K','L','M',
   'N','O','P','Q','R','S','T','U','V','W','X','Y','Z']

/-- The 26 ASCII lowercase letters (used to case over `upperChar`). -/
def lowerList : List Char :=
  ['a','b','c','d','e','f','g','h','i','j','k','l','m',
   'n','o','p','q','r','s','t','u','v','w','x','y','z']

/-- A URL scheme as CPython's `urlsplit` accepts one: non-empty, first
character an ASCII letter, remaining characters scheme characters. -/
def ValidSchemeP (s : List Char) : Prop :=
  ∃ b0 br, s = b0 :: br ∧ isAsciiAlpha b0 = true ∧ br.all schemeChar = true

/-- The path adjustment `normalize_url` performs: strip trailing slashes
unless the path has length at most one. -/
def pathNorm (p : List Char) : List Char :=
  if p.length > 1 then rstripSlashL p else p

/-! ## DOM model

BeautifulSoup over lxml is modelled as an ordered tree of elements (tag,
attribute association list, children) and text nodes.  `find` and
`find_all` search strict descendants in document (pre-)order, as bs4 does;
`get_text(sep, strip=True)` joins the stripped non-empty strings of the
subtree with the separator, `get_text()` concatenates the raw strings.
A found Tag is always truthy (`Tag.__bool__` is constant `True`).
Regexes of the form `lit1|lit2|...` with `re.I` used on class and id
attributes are modelled as case-insensitive substring tests, which agrees
with bs4 token-wise matching because the literals contain no whitespace. -/

inductive Node where
  | text (s : String)
  | elem (tag : String) (attrs : List (String × String)) (children : List Node)

def Node.tagName : Node → Option String
  | .text _ => none
  | .elem t _ _ => some t

def Node.attr : Node → String → Option String
  | .text _, _ => none
  | .elem _ attrs _, k => (attrs.find? (fun p => p.1 = k)).map Prod.snd

/-- `el.get(k, dflt)`. -/
def Node.attrD (n : Node) (k dflt : String) : String := (n.attr k).getD dflt

def Node.childNodes : Node → List Node
  | .text _ => []
  | .elem _ _ cs => cs

mutual
def nodeStrings : Node → List String
  | .text s => [s]
  | .elem _ _ cs => nodeStringsL cs
def nodeStringsL : List Node → List String
  | [] => []
  | c :: cs => nodeStrings c ++ nodeStringsL cs
end

/-- `get_text()`: concatenation of all strings in the subtree. -/
def getTextRaw (n : Node) : String := String.join (nodeStrings n)

def stripJoin (sep : String) (parts : List String) : String :=
  String.intercalate sep ((parts.map pyStrip).filter (fun s => !(s = "")))

/-- `get_text(" ", strip=True)`. -/
def getTextSp (n : Node) : String := stripJoin " " (nodeStrings n)

/-- `get_text(strip=True)`. -/
def getTextStrip (n : Node) : String := stripJoin "" (nodeStrings n)

mutual
def findAll (p : Node → Bool) : Node → List Node
  | .text _ => []
  | .elem _ _ cs => findAllL p cs
def findAllL (p : Node → Bool) : List Node → List Node
  | [] => []
  | c :: cs => (if p c then [c] else []) ++ findAll p c ++ findAllL p cs
end

/-- `el.find(...)`: first matching strict descendant in document order. -/
def findFirst (p : Node → Bool) (n : Node) : Option Node := (findAll p n).head?

def isTag (t : String) (n : Node) : Bool := n.tagName = some t

def isTagIn (ts : List String) (n : Node) : Bool :=
  match n.tagName with
  | some t => ts.contains t
  | none => false

def hasAttrKey (k : String) (n : Node) : Bool := (n.attr k).isSome

/-- Maximal non-whitespace runs of a character list, accumulating the
current (reversed) run. -/
def wordsAux (cur : List Char) : List Char → List String
  | [] => if cur = [] then [] else [ofChars cur.reverse]
  | c :: cs =>
    if isPyWs c then
      (if cur = [] then [] else [ofChars cur.reverse]) ++ wordsAux [] cs
    else wordsAux (c :: cur) cs

/-- Words of a string (splitting on Python whitespace, dropping empties). -/
def pyWords (s : String) : List String := wordsAux [] s.data

/-- `" ".join(el.get("class", []))`: bs4 splits the class attribute on
whitespace into tokens; joining restores single spaces. -/
def joinedClasses (n : Node) : String :=
  String.intercalate " " (pyWords (n.attrD "class" ""))

/-- Model of `re.search("lit1|lit2|...", s, re.I)` for literal alternatives. -/
def reSearchAny (needles : List String) (s : String) : Bool :=
  needles.any (fun nd => containsStr (lowerStr s) (lowerStr nd))

/-- `find(class_=re.compile(lits, re.I))` element test: the element has a
class attribute whose tokens (equivalently, whose joined text) match. -/
def classMatches (needles : List String) (n : Node) : Bool :=
  match n.attr "class" with
  | none => false
  | some c => reSearchAny needles c

def idMatches (needles : List String) (n : Node) : Bool :=
  match n.attr "id" with
  | none => false
  | some c => reSearchAny needles c

mutual
/-- `tag.decompose()` applied to all elements with the given tags
(on a working copy). -/
def removeTags (ts : List String) : Node → Node
  | .text s => .text s
  | .elem t a cs => .elem t a (removeTagsL ts cs)
def removeTagsL (ts : List String) : List Node → List Node
  | [] => []
  | c :: cs =>
    (if isTagIn ts c then [] else [removeTags ts c]) ++ removeTagsL ts cs
end

/-! ## Components and the classifier (`identify_component_type`) -/

inductive Component where
  | hero_banner (title subtitle : String)
  | form (fields : List String)
  | table (columns : Option (List String)) (sample_data : List (List String))
  | list (items : List String)
  | media_gallery (image_count : Nat) (images : List (String × String))
  | rich_text (heading content_preview : String)
  | text_block (content : String)
deriving DecidableEq, Repr

/-- `text[:k] + "..." if len(text) > k else text`. -/
def truncAfter (k : Nat) (s : String) : String :=
  if s.length > k then ofChars (s.data.take k) ++ "..." else s

/-- `re.sub(r"\s+", " ", text)`: collapse whitespace runs to single
spaces (the flag records whether the previous character was whitespace). -/
def collapseAux : Bool → List Char → List Char
  | _, [] => []
  | prevWs, c :: cs =>
    if isPyWs c then
      if prevWs then collapseAux true cs else ' ' :: collapseAux true cs
    else c :: collapseAux false cs

/-- `re.sub(r"\s+", " ", text).strip()`. -/
def collapseStrip (s : String) : String := pyStrip (ofChars (collapseAux false s.data))

/-- `str.title()` for ASCII: uppercase each letter that follows a
non-letter, lowercase the other letters. -/
def titleAux : Bool → List Char → List Char
  | _, [] => []
  | prev, c :: cs =>
    if isAsciiAlpha c then
      (if prev then lowerChar c else upperChar c) :: titleAux true cs
    else c :: titleAux false cs

def pyTitle (s : String) : String := ofChars (titleAux false s.data)

/-- `.replace("_", " ").replace("-", " ")`. -/
def replUH (s : String) : String :=
  ofChars (s.data.map (fun c => if c = '_' || c = '-' then ' ' else c))

/-- `list(dict.fromkeys(l))`: deduplicate keeping first occurrences. -/
def dedupKeys [DecidableEq α] (seen : List α) : List α → List α
  | [] => []
  | x :: xs => if x ∈ seen then dedupKeys seen xs else x :: dedupKeys (x :: seen) xs

def dedupFirst [DecidableEq α] (l : List α) : List α := dedupKeys [] l

/-- `hay.replace(needle, "", 1)`: delete the first occurrence, if any. -/
def dropFirstOccur : List Char → List Char → List Char
  | hay, [] => hay
  | [], _ :: _ => []
  | h :: t, n0 :: ns =>
    if startsL (h :: t) (n0 :: ns) then (h :: t).drop (n0 :: ns).length
    else h :: dropFirstOccur t (n0 :: ns)

def pyReplaceFirst (s old : String) : String := ofChars (dropFirstOccur s.data old.data)

/-- Hero vocabulary tested on the element's own classes (line 319). -/
def heroNeedles1 : List String := ["hero", "banner", "slider", "carousel", "jumbotron"]

/-- Hero vocabulary tested on descendants' classes (line 320). -/
def heroNeedles2 : List String := ["hero", "banner", "slider", "carousel"]

/-- First paragraph (among the first three) whose stripped text length lies
strictly between 20 and 200 (lines 329-333). -/
def findSubtitle : List Node → String
  | [] => ""
  | p :: ps =>
    let t := getTextStrip p
    if 20 < t.length && t.length < 200 then t else findSubtitle ps

/-- Lines 318-340: the HeroBanner arm of `identify_component_type`. -/
def heroPart (el : Node) (element_classes : String) : Option Component :=
  if reSearchAny heroNeedles1 element_classes
      || (findFirst (classMatches heroNeedles2) el).isSome then
    let title :=
      match findFirst (isTagIn ["h1", "h2", "h3"]) el with
      | some h => getTextStrip h
      | none => ""
    let subtitle := findSubtitle ((findAll (isTag "p") el).take 3)
    if !(title = "") || !(subtitle = "") then some (.hero_banner title subtitle)
    else none
  else none

/-- Python `inp.get("placeholder") or inp.get("name") or inp.get("id", "")`:
first truthy value. -/
def firstNonEmpty : List (Option String) → String
  | [] => ""
  | none :: rest => firstNonEmpty rest
  | some s :: rest => if s = "" then firstNonEmpty rest else s

/-- Line 351: `inp.get("placeholder") or inp.get("name") or inp.get("id", "")`. -/
def rawLabel (inp : Node) : String :=
  firstNonEmpty [inp.attr "placeholder", inp.attr "name", some (inp.attrD "id" "")]

/-- Line 354: underscores and hyphens become spaces, then `.strip()`. -/
def cleanedLabel (inp : Node) : String := pyStrip (replUH (rawLabel inp))

/-- Lines 346-356: one form control's contribution to the field list. -/
def fieldLabel (inp : Node) : Option String :=
  if inp.attrD "type" "text" = "submit" || inp.attrD "type" "text" = "button"
      || inp.attrD "type" "text" = "hidden" then none
  else if rawLabel inp = "" then none
  else if !(cleanedLabel inp = "") && (cleanedLabel inp).length < 50 then
    some (pyTitle (cleanedLabel inp))
  else none

/-- Lines 346-356: the surviving field labels of a form, in document order. -/
def formFields (f : Node) : List String :=
  (findAll (isTagIn ["input", "textarea", "select"]) f).filterMap fieldLabel

/-- Lines 342-362: the Form arm of `identify_component_type`. -/
def formPart (el : Node) : Option Component :=
  match (if isTag "form" el then some el else findFirst (isTag "form") el) with
  | none => none
  | some f =>
    if !(formFields f = []) then some (.form (dedupFirst (formFields f))) else none

/-- Lines 364-389: the Table arm of `identify_component_type`. -/
def tablePart (el : Node) : Option Component :=
  match (if isTag "table" el then some el else findFirst (isTag "table") el) with
  | none => none
  | some tb =>
    let columns := ((findAll (isTag "th") tb).map getTextStrip).filter (fun s => !(s = ""))
    let rows := ((findAll (isTag "tr") tb).take 6).filterMap (fun tr =>
      let tds := findAll (isTagIn ["td", "th"]) tr
      if tds.isEmpty then none
      else
        let row := tds.map getTextStrip
        if row.any (fun s => !(s = "")) then some row else none)
    if !(columns = []) || 1 < rows.length then
      some (.table (if columns = [] then none else some columns) (rows.take 5))
    else none

/-- Lines 391-404: the List arm of `identify_component_type`. -/
def listPart (el : Node) : Option Component :=
  match findFirst (isTagIn ["ul", "ol"]) el with
  | none => none
  | some ul =>
    if isTagIn ["nav", "header", "footer"] el then none
    else
      let items := (((ul.childNodes.filter (isTag "li")).take 10).map getTextStrip).filter
        (fun t => !(t = "") && t.length < 200)
      if 3 ≤ items.length then some (.list items) else none

/-- Lines 406-421: the MediaGallery arm of `identify_component_type`. -/
def galleryPart (el : Node) : Option Component :=
  let images := findAll (isTag "img") el
  if 2 ≤ images.length then
    let image_info := (images.take 5).filterMap (fun img =>
      if !(img.attrD "src" "" = "") then some (img.attrD "alt" "Image", img.attrD "src" "")
      else none)
    if !(image_info = []) then some (.media_gallery images.length image_info)
    else none
  else none

/-- Lines 423-444: the RichText and TextBlock tail of
`identify_component_type` (both live under `len(text) > 100`). -/
def proseTail (el : Node) (text : String) : Option Component :=
  if text.length > 100 then
    match (findAll (isTagIn ["h1", "h2", "h3", "h4", "h5"]) el).head? with
    | some h =>
      some (.rich_text (getTextStrip h)
        (truncAfter 300 (pyStrip (pyReplaceFirst text (getTextStrip h)))))
    | none =>
      if (collapseStrip text).length > 50 then
        some (.text_block (truncAfter 400 (collapseStrip text)))
      else none
  else none

/-- `DrupalParser.identify_component_type` (lines 304-446): ordered
heuristic cascade, first match wins; subtrees with visible text shorter
than 20 characters are rejected outright. -/
def identify_component_type (el : Node) : Option Component :=
  if (getTextSp el).length < 20 then none
  else
    match heroPart el (lowerStr (joinedClasses el)) with
    | some c => some c
    | none =>
      match formPart el with
      | some c => some c
      | none =>
        match tablePart el with
        | some c => some c
        | none =>
          match listPart el with
          | some c => some c
          | none =>
            match galleryPart el with
            | some c => some c
            | none => proseTail el (getTextSp el)


/-! ## Concrete fixtures used by counterexamples and witnesses -/

/-- A td cell holding one string. -/
def tdCell (s : String) : Node := .elem "td" [] [.text s]

/-- A th cell holding one string. -/
def thCell (s : String) : Node := .elem "th" [] [.text s]

/-- A tr row. -/
def trRow (cs : List Node) : Node := .elem "tr" [] cs

/-- The table of the spec's example: headers Name and Age, rows A 1 and B 2. -/
def tableNameAge : Node :=
  .elem "table" []
    [trRow [thCell "Name", thCell "Age"],
     trRow [tdCell "A", tdCell "1"],
     trRow [tdCell "B", tdCell "2"]]

/-- A table with the same headers but cell texts long enough to pass the
20-character minimum gate. -/
def tableBig : Node :=
  .elem "table" []
    [trRow [thCell "Name", thCell "Age"],
     trRow [tdCell "Alice", tdCell "100"],
     trRow [tdCell "Bobby", tdCell "200"]]

/-- A div whose collapsed text has 59 characters but whose raw text does
not exceed 100 characters. -/
def div60 : Node :=
  .elem "div" [] [.text "abcdefghij abcdefghij abcdefghij abcdefghij abcdefghij abcd"]

/-- A div with 118 characters of raw text containing double spaces, whose
collapsed text has 99 characters. -/
def divLong : Node :=
  .elem "div" []
    [.text "word  word  word  word  word  word  word  word  word  word  word  word  word  word  word  word  word  word  word  word"]

/-- A hero-classed div that also contains a form with one surviving field
and more than 100 characters of text. -/
def heroForm : Node :=
  .elem "div" [("class", "hero")]
    [.elem "h1" [] [.text "Welcome to the site!"],
     .elem "p" [] [.text "This paragraph is a subtitle of decent length here."],
     .elem "form" [] [.elem "input" [("placeholder", "Email Address")] []],
     .text "Plenty of additional prose follows so that the raw text easily exceeds one hundred characters in total length for sure."]

/-- Like `heroForm` but without the hero class and heading. -/
def plainForm : Node :=
  .elem "div" []
    [.elem "form" [] [.elem "input" [("placeholder", "Email Address")] []],
     .text "Plenty of additional prose follows so that the raw text easily exceeds one hundred characters in total length for sure."]

/-- A form with one 65-character label (discarded) and one short one. -/
def longLabelForm : Node :=
  .elem "form" []
    [.elem "input" [("placeholder", "this_placeholder_is_extremely_long_and_has_fifty_plus_characters")] [],
     .elem "input" [("name", "user_name")] []]


/-! ## Global component extraction (`extract_header`, `extract_footer`,
`extract_website_metadata`)

The email/phone regex collections and the three address patterns are, per
the specification, external collaborators; they are passed in as function
parameters (`String -> List String`, resp. `String -> Option String`).
The emitted Python dicts are modelled as ordered association lists over a
small JSON-value type so that a key present with value `None` (serialized
as `null`) is distinguishable from an absent key. -/

inductive JVal where
  | jnull
  | jstr (s : String)
  | jarr (xs : List String)
  | jobj (fields : List (String × String))
deriving DecidableEq, Repr

/-- Python truthiness of the values appearing in header/footer dicts. -/
def truthy : JVal → Bool
  | .jnull => false
  | .jstr s => !(s = "")
  | .jarr xs => !xs.isEmpty
  | .jobj fs => !fs.isEmpty

def socialPlatforms : List String :=
  ["twitter", "facebook", "linkedin", "youtube", "instagram"]

/-- Lines 161-163: the header element, else a nav/div with a
header-suggesting class. -/
def headerEl (soup : Node) : Option Node :=
  match findFirst (isTag "header") soup with
  | some h => some h
  | none => findFirst (fun n => isTagIn ["nav", "div"] n
      && classMatches ["header", "navbar", "navigation", "menu"] n) soup

/-- Lines 171-173: alt text of the first image, when non-empty. -/
def headerLogo (header : Node) : String :=
  match findFirst (isTag "img") header with
  | none => ""
  | some img => if !(img.attrD "alt" "" = "") then img.attrD "alt" "" else ""

/-- Lines 180-190: the navigation-link filter. -/
def navKeep (text href : String) : Bool :=
  !(text = "") && !(text.length > 50) && !(text.length < 3)
  && !(containsStr text "@") && !(containsStr href "@")
  && !(socialPlatforms.any (fun x => containsStr (lowerStr href) x))
  && !(endsStr href ".pdf") && !(containsStr (lowerStr href) "policy")
  && !(["cookie", "consent", "refuse"].any (fun x => containsStr (lowerStr text) x))

/-- Lines 176-194: surviving navigation texts in document order
(deduplication and the cap of 10 are applied by the caller). -/
def headerNav (header : Node) : List String :=
  (findAll (fun n => isTag "a" n && hasAttrKey "href" n) header).filterMap (fun a =>
    if navKeep (getTextStrip a) (a.attrD "href" "") then some (getTextStrip a) else none)

/-- Lines 197-204: the contact dict, email first then phone. -/
def headerContactPairs (fe fp : String → List String) (header : Node) :
    List (String × String) :=
  (match fe (getTextSp header) with
   | [] => []
   | e :: _ => [("email", e)]) ++
  (match fp (getTextSp header) with
   | [] => []
   | p :: _ => [("phone", pyStrip p)])

/-- `DrupalParser.extract_header` (lines 157-210).  Note line 209: the
contact key is always present, with value `None` when nothing was found. -/
def extract_header (fe fp : String → List String) (soup : Node) : List (String × JVal) :=
  match headerEl soup with
  | none => [("logo", .jstr ""), ("navigation", .jarr []), ("contact", .jnull)]
  | some header =>
    [("logo", .jstr (headerLogo header)),
     ("navigation", .jarr ((dedupFirst (headerNav header)).take 10)),
     ("contact",
      if (headerContactPairs fe fp header).isEmpty then .jnull
      else .jobj (headerContactPairs fe fp header))]

/-- Lines 228-235: fold the three address patterns into the street entry.
A match containing `Plot` overwrites the street; one containing `Sector`
is appended to the current street (empty default); others change nothing. -/
def footStreet (pats : List (String → Option String)) (ft : String) : Option String :=
  pats.foldl (fun acc pat =>
    match pat ft with
    | none => acc
    | some m =>
      if containsStr m "Plot" then some m
      else if containsStr m "Sector" then some ((acc.getD "") ++ " " ++ m)
      else acc) none

/-- Lines 218-276: the five footer entries before the truthiness filter. -/
def footerRaw (domain : String) (fe fp : String → List String)
    (pats : List (String → Option String)) (footer : Node) : List (String × JVal) :=
  [("address",
    match (match footStreet pats (getTextSp footer) with
           | none => []
           | some s => [("street", s)]) ++
          (if containsStr (getTextSp footer) "Gurugram" then [("city", "Gurugram")] else []) ++
          (if containsStr (getTextSp footer) "Haryana" then [("state", "Haryana")] else []) ++
          (if containsStr (getTextSp footer) "India" then [("country", "India")] else []) with
    | [] => JVal.jnull
    | fs => JVal.jobj fs),
   ("phone",
    match fp (getTextSp footer) with
    | [] => JVal.jnull
    | p :: _ => JVal.jstr (pyStrip p)),
   ("email",
    match fe (getTextSp footer) with
    | [] => JVal.jnull
    | e :: _ => JVal.jstr e),
   ("footer_links", JVal.jarr
    ((dedupFirst ((findAll (fun n => isTag "a" n && hasAttrKey "href" n) footer).filterMap
      (fun a =>
        if is_internal_link domain (a.attrD "href" "") && !(getTextStrip a = "")
            && !(endsStr (a.attrD "href" "") ".pdf") && (getTextStrip a).length < 30 then
          some (getTextStrip a)
        else none))).take 10)),
   ("social_links", JVal.jarr
    (dedupFirst ((findAll (fun n => isTag "a" n && hasAttrKey "href" n) footer).filterMap
      (fun a => socialPlatforms.find? (fun p => containsStr (lowerStr (a.attrD "href" "")) p)))))]

/-- `DrupalParser.extract_footer` (lines 212-279): absent footer yields an
empty dict; otherwise the entries above with falsy values dropped
(line 279). -/
def extract_footer (domain : String) (fe fp : String → List String)
    (pats : List (String → Option String)) (soup : Node) : List (String × JVal) :=
  match findFirst (isTag "footer") soup with
  | none => []
  | some footer => (footerRaw domain fe fp pats footer).filter (fun kv => truthy kv.2)

/-- Characters at which the site name is cut (`re.sub` on line 144). -/
def siteNameDash (c : Char) : Bool := c = '-' || c = '|' || c = '–'

/-- Line 144: cut the title at the first dash/pipe (with the whitespace
before it), keeping everything when no such character occurs. -/
def cutSiteName (s : String) : String :=
  if s.data.any siteNameDash then
    ofChars (((s.data.takeWhile (fun c => !siteNameDash c)).reverse.dropWhile isPyWs).reverse)
  else s

/-- `DrupalParser.extract_website_metadata` (lines 134-155): name from the
title element (cut at the first dash), the base url, and the stripped meta
description. -/
def extract_website_metadata (base_url : String) (soup : Node) : String × String × String :=
  (match findFirst (isTag "title") soup with
   | none => ""
   | some t => cutSiteName (getTextStrip t),
   base_url,
   match findFirst (fun n => isTag "meta" n && n.attrD "name" "" = "description") soup with
   | none => ""
   | some m => pyStrip (m.attrD "content" ""))

/-- A minimal page with a header that holds no contact information. -/
def soupHdr : Node :=
  .elem "html" [] [.elem "body" [] [.elem "header" [] [.text "Hello site"]]]


/-- A minimal page with a footer holding one internal link. -/
def soupFtr : Node :=
  .elem "html" [] [.elem "footer" [] [.elem "a" [("href", "/about")] [.text "About"]]]


/-! ## Page parsing (`generate_page_slug`, `extract_page_components`,
`extract_page_links`, `parse_page`)

The stdlib `urljoin` and the md5 hex digest are collaborators passed as
function parameters `uj` and `md5h`. -/

/-- Line 292: strip a `.php`, `.html` or `.htm` extension at the end. -/
def dropSuffixExt (l : List Char) : List Char :=
  if startsL l.reverse (String.data ".php").reverse then l.take (l.length - 4)
  else if startsL l.reverse (String.data ".html").reverse then l.take (l.length - 5)
  else if startsL l.reverse (String.data ".htm").reverse then l.take (l.length - 4)
  else l

/-- Line 299: lowercase, keep `a-z`, `0-9` and `-`, replace the rest by `-`. -/
def slugChar (c : Char) : Char :=
  if isAsciiLower (lowerChar c) || isAsciiDigit (lowerChar c) || lowerChar c = '-' then
    lowerChar c
  else '-'

/-- Line 300: collapse runs of `-` to a single `-`. -/
def slugDashAux : Bool → List Char → List Char
  | _, [] => []
  | prev, c :: cs =>
    if c = '-' then
      if prev then slugDashAux true cs else '-' :: slugDashAux true cs
    else c :: slugDashAux false cs

/-- Line 300: `.strip('-')`. -/
def stripDashes (l : List Char) : List Char :=
  ((l.dropWhile (fun c => c = '-')).reverse.dropWhile (fun c => c = '-')).reverse

/-- Line 287: `urlparse(url).path.strip("/")`. -/
def slugPath (url : String) : List Char :=
  rstripSlashL ((urlparse url).path.dropWhile (fun c => c = '/'))

/-- Lines 292-296: extension removed, then the last `/`-separated segment. -/
def slugLastSeg (l : List Char) : List Char :=
  ((dropSuffixExt l).reverse.takeWhile (fun c => !(c = '/'))).reverse

/-- Lines 299-300: lowercase and replace, collapse dashes, strip dashes. -/
def slugClean (l : List Char) : List Char :=
  stripDashes (slugDashAux false (l.map slugChar))

/-- `DrupalParser.generate_page_slug` (lines 285-302). -/
def generate_page_slug (url : String) : String :=
  if (slugPath url).isEmpty then "home"
  else if (slugClean (slugLastSeg (slugPath url))).isEmpty then "home"
  else ofChars (slugClean (slugLastSeg (slugPath url)))

/-- Class vocabulary for the main-content search (line 458). -/
def contentRe : List String := ["content", "main"]

/-- Class vocabulary for the section fallback (line 487). -/
def sectionClassRe : List String :=
  ["section", "block", "component", "paragraph", "content-block", "region"]

/-- Class vocabulary for the hero search of the assembler (line 465). -/
def heroClassRe2 : List String := ["hero", "banner", "slider", "jumbotron", "intro"]

/-- Lines 458-460: the main content region of a copy with header/footer
removed: an explicit main element, else a div whose id or class suggests
content, else the body.  (If the document had no body element the Python
code would raise; lxml-parsed documents always have one, so the model
falls back to the whole tree at that unreachable corner.) -/
def mainRegion (soup2 : Node) : Node :=
  match findFirst (isTag "main") soup2 with
  | some m => m
  | none =>
    match findFirst (fun n => isTag "div" n && idMatches contentRe n) soup2 with
    | some m => m
    | none =>
      match findFirst (fun n => isTag "div" n && classMatches contentRe n) soup2 with
      | some m => m
      | none =>
        match findFirst (isTag "body") soup2 with
        | some b => b
        | none => soup2

/-- Line 491: append a classification result unless it is a duplicate. -/
def appendNew (cs : List Component) : Option Component → List Component
  | none => cs
  | some c => if c ∈ cs then cs else cs ++ [c]

mutual
/-- The parents of the h1-h3 headings of a subtree, in heading document
order (models `heading.parent` for `main.find_all(["h1","h2","h3"])`). -/
def headingParents : Node → List Node
  | .text _ => []
  | .elem t a cs => headingParentsL (.elem t a cs) cs
def headingParentsL (parent : Node) : List Node → List Node
  | [] => []
  | c :: cs =>
    (if isTagIn ["h1", "h2", "h3"] c then [parent] else []) ++ headingParents c
      ++ headingParentsL parent cs
end

/-- `DrupalParser.extract_page_components` (lines 448-515). -/
def extract_page_components (soup : Node) : List Component :=
  let main := mainRegion (removeTags ["header", "footer"] soup)
  let c1 :=
    match findFirst (fun n => isTagIn ["div", "section"] n && classMatches heroClassRe2 n)
        main with
    | none => []
    | some hero =>
      match identify_component_type hero with
      | none => []
      | some c => [c]
  let c2 := c1 ++ (findAll (isTag "form") main).filterMap identify_component_type
  let c3 := c2 ++ (findAll (isTag "table") main).filterMap identify_component_type
  let sections :=
    if (findAll (isTagIn ["section", "article"]) main).isEmpty then
      findAll (fun n => isTag "div" n && classMatches sectionClassRe n) main
    else findAll (isTagIn ["section", "article"]) main
  let c4 := (sections.take 10).foldl (fun acc s => appendNew acc (identify_component_type s)) c3
  let c5 :=
    if c4.isEmpty then
      ((headingParents main).take 5).foldl
        (fun acc p => appendNew acc (identify_component_type p)) c4
    else c4
  if c5.isEmpty then
    if (collapseStrip (getTextSp main)).length > 50 then
      [Component.text_block (truncAfter 600 (collapseStrip (getTextSp main)))]
    else []
  else c5

/-- `DrupalParser.extract_page_links` (lines 517-552): anchors of the main
region of a copy with header/footer/nav removed, partitioned into
deduplicated internal (normalized, capped at 20) and external (capped at
10) lists. -/
def extract_page_links (uj : String → String → String) (base_url domain : String)
    (soup : Node) : List String × List String :=
  let soup2 := removeTags ["header", "footer", "nav"] soup
  let root :=
    match (match findFirst (isTag "main") soup2 with
           | some m => some m
           | none => findFirst (isTag "body") soup2) with
    | some c => c
    | none => soup2
  let r := (findAll (fun n => isTag "a" n && hasAttrKey "href" n) root).foldl
    (fun acc a =>
      if startsStr (a.attrD "href" "") "#" || startsStr (a.attrD "href" "") "javascript:"
          || startsStr (a.attrD "href" "") "mailto:" || startsStr (a.attrD "href" "") "tel:" then
        acc
      else if containsStr (lowerStr (a.attrD "href" "")) "cookie" then acc
      else if is_internal_link domain (uj base_url (a.attrD "href" "")) then
        if !(normalize_url (uj base_url (a.attrD "href" "")) ∈ acc.1)
            && !(endsStr (normalize_url (uj base_url (a.attrD "href" ""))) ".pdf") then
          (acc.1 ++ [normalize_url (uj base_url (a.attrD "href" ""))], acc.2)
        else acc
      else
        if !(uj base_url (a.attrD "href" "") ∈ acc.2)
            && !(endsStr (uj base_url (a.attrD "href" "")) ".pdf") then
          (acc.1, acc.2 ++ [uj base_url (a.attrD "href" "")])
        else acc)
    ([], [])
  (r.1.take 20, r.2.take 10)

structure PageRec where
  page_slug : String
  page_title : String
  path : String
  components : List Component
  linksInternal : List String
  linksExternal : List String
deriving DecidableEq, Repr

/-- Lines 566-580: the record `parse_page` builds once the duplicate gate
has been passed. -/
def buildPage (uj : String → String → String) (base_url domain url : String)
    (soup : Node) : PageRec :=
  ⟨generate_page_slug url,
   (match findFirst (isTag "title") soup with
    | none => ""
    | some t => getTextStrip t),
   (if (urlparse url).path.isEmpty then "/" else ofChars (urlparse url).path),
   extract_page_components soup,
   (extract_page_links uj base_url domain soup).1,
   (extract_page_links uj base_url domain soup).2⟩

/-- Lines 558-559: `soup.find("main") or soup.body`. -/
def mainContentOf (soup : Node) : Option Node :=
  match findFirst (isTag "main") soup with
  | some m => some m
  | none => findFirst (isTag "body") soup

/-- `DrupalParser.parse_page` (lines 554-580): fingerprint the main
content (md5 of its raw text), drop the page when the fingerprint was
seen, otherwise register it and build the page record.  Pages without a
main content region (no main and no body) bypass the gate. -/
def parse_page (md5h : String → String) (uj : String → String → String)
    (base_url domain url : String) (soup : Node) (seen : Finset String) :
    Option PageRec × Finset String :=
  match mainContentOf soup with
  | some m =>
    if md5h (getTextRaw m) ∈ seen then (none, seen)
    else (some (buildPage uj base_url domain url soup), insert (md5h (getTextRaw m)) seen)
  | none => (some (buildPage uj base_url domain url soup), seen)

/-- Two pages with different URLs and markup but identical main-content
text. -/
def soupPg1 : Node :=
  .elem "html" [] [.elem "body" [] [.elem "main" [] [.text "Hello duplicate page"]]]

/-- Second fixture page: same main-content text as `soupPg1`. -/
def soupPg2 : Node :=
  .elem "html" [] [.elem "body" []
    [.elem "main" [("id", "other")] [.text "Hello duplicate page"]]]


/-! ## Frontier model (`discover_all_pages`, lines 96-128)

The composition fetch-then-`crawl_internal_links` is the oracle
`links : String -> Option (List String)`; `none` models a failed fetch.
Two ghost fields record history so the claims can be stated: `enqueued`
lists every URL ever appended to the queue (the seeds included) and
`flog` every URL passed to `fetch` during discovery.  `allUrls` is the
Python set `all_urls` (the discovered set), `visited` the instance set
`self.visited`. -/

structure FrontierState where
  allUrls : Finset String
  queue : List String
  visited : Finset String
  enqueued : List String
  flog : List String

/-- Lines 122-125: add each found link that is not yet discovered to both
the discovered set and the queue. -/
def enqueueAll : FrontierState → List String → FrontierState
  | st, [] => st
  | st, l :: ls =>
    if l ∈ st.allUrls then enqueueAll st ls
    else enqueueAll ⟨insert l st.allUrls, st.queue ++ [l], st.visited,
                     st.enqueued ++ [l], st.flog⟩ ls

/-- One iteration of the while-loop (lines 110-125): pop, skip if visited,
fetch (logged), skip on failure, else mark visited and enqueue new links. -/
def discoverStep (links : String → Option (List String)) (st : FrontierState) :
    FrontierState :=
  match st.queue with
  | [] => st
  | url :: rest =>
    if url ∈ st.visited then ⟨st.allUrls, rest, st.visited, st.enqueued, st.flog⟩
    else
      match links url with
      | none => ⟨st.allUrls, rest, st.visited, st.enqueued, st.flog ++ [url]⟩
      | some ls =>
        enqueueAll ⟨st.allUrls, rest, insert url st.visited, st.enqueued,
                    st.flog ++ [url]⟩ ls

/-- The while-loop with fuel, also counting the iterations taken. -/
def discoverLoop (links : String → Option (List String)) :
    Nat → FrontierState → Nat × FrontierState
  | 0, st => (0, st)
  | fuel + 1, st =>
    match st.queue with
    | [] => (0, st)
    | _ :: _ =>
      ((discoverLoop links fuel (discoverStep links st)).1 + 1,
       (discoverLoop links fuel (discoverStep links st)).2)

/-- The state invariant of the frontier. -/
structure FrontierInv (st : FrontierState) : Prop where
  queue_sub : ∀ u ∈ st.queue, u ∈ st.allUrls
  visited_sub : ∀ u ∈ st.visited, u ∈ st.allUrls
  queue_nodup : st.queue.Nodup
  enq_nodup : st.enqueued.Nodup
  enq_sub : ∀ u ∈ st.enqueued, u ∈ st.allUrls
  log_nodup : st.flog.Nodup
  log_sub : ∀ u ∈ st.flog, u ∈ st.allUrls
  log_disj : ∀ u ∈ st.flog, u ∉ st.queue
  enq_cover : ∀ u ∈ st.allUrls, u ∈ st.enqueued

/-- Termination measure relative to a bounding universe of URLs. -/
def measureF (U : Finset String) (st : FrontierState) : Nat :=
  st.queue.length + (U.card - st.allUrls.card)

/-! ## Run model (`run`, lines 586-641)

`fetch` returns the parsed document of a successful HTML fetch, `none`
otherwise; `md5h`, `uj` and the contact/address extractors are the same
collaborators as above.  `mainLog` records the URLs `run` itself passes to
`fetch`: the home page (line 595) and then every discovered URL (line
626); `discoveryLog` records the fetches of the discovery phase. -/

/-- `re.search` for the reserved non-content extensions (line 91). -/
def mediaExt (s : String) : Bool :=
  [".pdf", ".jpg", ".jpeg", ".png", ".gif", ".zip", ".doc", ".docx"].any
    (fun e => endsStr (lowerStr s) e)

/-- `DrupalParser.crawl_internal_links` (lines 75-94).  The Python
function returns a set; the model returns the first-occurrence list, whose
order the discovery loop does not depend on for the claims at issue. -/
def crawl_internal_links (uj : String → String → String) (base domain : String)
    (soup : Node) : List String :=
  dedupFirst ((findAll (fun n => isTag "a" n && hasAttrKey "href" n) soup).filterMap
    (fun a =>
      if startsStr (a.attrD "href" "") "#" || startsStr (a.attrD "href" "") "javascript:"
          || startsStr (a.attrD "href" "") "mailto:" || startsStr (a.attrD "href" "") "tel:" then
        none
      else if is_internal_link domain (uj base (a.attrD "href" "")) then
        if mediaExt (normalize_url (uj base (a.attrD "href" ""))) then none
        else some (normalize_url (uj base (a.attrD "href" "")))
      else none))

def linksOracle (fetch : String → Option Node) (uj : String → String → String)
    (base : String) : String → Option (List String) :=
  fun u => (fetch u).map (crawl_internal_links uj base (ofChars (urlparse base).netloc))

/-- Insertion into a `<=`-sorted list of strings, structurally recursive
so that concrete runs reduce. -/
def insertSorted (a : String) : List String → List String
  | [] => [a]
  | b :: bs => if a ≤ b then a :: b :: bs else b :: insertSorted a bs

/-- Insertion sort: the model of Python `sorted` on a list of strings. -/
def insSort : List String → List String
  | [] => []
  | a :: as => insertSorted a (insSort as)

/-- Lines 98-103: the sitemap seeds (normalized loc texts) with the base
URL, first occurrences kept. -/
def seedsList (base : String) (locs : List String) : List String :=
  dedupFirst (base :: locs.map (fun l => normalize_url (pyStrip l)))

/-- The seeds as the initial value of the Python set `all_urls`. -/
def seedsOf (base : String) (locs : List String) : Finset String :=
  (seedsList base locs).toFinset

/-- Line 108: `queue = list(all_urls)` (the model fixes the set-iteration
order to be the insertion order; the claims do not depend on it). -/
def initialFrontier (base : String) (locs : List String) : FrontierState :=
  ⟨seedsOf base locs, seedsList base locs, ∅, seedsList base locs, []⟩

/-- Line 128: `sorted(all_urls)` after the loop.  The ghost field
`enqueued` enumerates exactly the members of `all_urls` (invariant fields
`enq_sub` and `enq_cover`), so sorting it is sorting the discovered set. -/
def discoveredList (fetch : String → Option Node) (uj : String → String → String)
    (fuel : Nat) (base : String) (locs : List String) : List String :=
  insSort ((discoverLoop (linksOracle fetch uj base) fuel (initialFrontier base locs)).2).enqueued

def discoveryFetchLog (fetch : String → Option Node) (uj : String → String → String)
    (fuel : Nat) (base : String) (locs : List String) : List String :=
  ((discoverLoop (linksOracle fetch uj base) fuel (initialFrontier base locs)).2).flog

/-- Lines 623-635: fetch every discovered URL in order and keep the
non-duplicate parsed pages. -/
def assemble (fetch : String → Option Node) (md5h : String → String)
    (uj : String → String → String) (base domain : String) :
    List String → Finset String → List PageRec
  | [], _ => []
  | u :: us, seen =>
    match fetch u with
    | none => assemble fetch md5h uj base domain us seen
    | some soup =>
      match parse_page md5h uj base domain u soup seen with
      | (none, seen2) => assemble fetch md5h uj base domain us seen2
      | (some pg, seen2) => pg :: assemble fetch md5h uj base domain us seen2

structure WebsiteRec where
  name : String
  url : String
  description : String
  header : List (String × JVal)
  footer : List (String × JVal)
  pages : List PageRec

structure RunResult where
  website : Option WebsiteRec
  discovered : List String
  discoveryLog : List String
  mainLog : List String

/-- `DrupalParser.run` (lines 586-641): discover, fetch the home page
(return the empty result when that fails), extract metadata and global
components, then assemble every discovered URL, skipping failed fetches
and duplicate pages. -/
def runModel (fetch : String → Option Node) (md5h : String → String)
    (uj : String → String → String) (fe fp fpf : String → List String)
    (pats : List (String → Option String)) (fuel : Nat)
    (base : String) (locs : List String) : RunResult :=
  match fetch base with
  | none =>
    ⟨none, discoveredList fetch uj fuel base locs,
     discoveryFetchLog fetch uj fuel base locs, [base]⟩
  | some hsoup =>
    ⟨some ⟨(extract_website_metadata base hsoup).1,
           (extract_website_metadata base hsoup).2.1,
           (extract_website_metadata base hsoup).2.2,
           extract_header fe fp hsoup,
           extract_footer (ofChars (urlparse base).netloc) fe fpf pats hsoup,
           assemble fetch md5h uj base (ofChars (urlparse base).netloc)
             (discoveredList fetch uj fuel base locs) ∅⟩,
     discoveredList fetch uj fuel base locs,
     discoveryFetchLog fetch uj fuel base locs,
     base :: discoveredList fetch uj fuel base locs⟩

/-- A fetch oracle serving one page with no anchors at the base URL. -/
def soloFetch : String → Option Node :=
  fun u =>
    if u = "https://a.com" then
      some (Node.elem "html" [] [Node.elem "body" []
        [Node.elem "main" [] [Node.text "Just one page with enough text to parse."]]])
    else none


/-- A one-URL frontier start state: the base URL seeded, queued, recorded
as enqueued, nothing visited or fetched. -/
def wFrontier : FrontierState :=
  ⟨{"https://a.com"}, ["https://a.com"], ∅, ["https://a.com"], []⟩

/-- The page list of a run result (empty for the fatal empty result). -/
def pagesOf (r : RunResult) : List PageRec :=
  match r.website with
  | some w => w.pages
  | none => []


end DrupalSite

namespace DrupalSite

/-! # Theorems -/

/-! ## Character lemmas -/

theorem lowerChar_cases (c : Char) : lowerChar c = c ∨ c ∈ upperList := by
  unfold lowerChar
  split <;> first | (left; rfl) | (right; decide)

theorem lowerChar_idem (c : Char) : lowerChar (lowerChar c) = lowerChar c := by
  rcases lowerChar_cases c with h | h
  · rw [h, h]
  · fin_cases h <;> decide

theorem lowerChar_alpha (c : Char) (h : isAsciiAlpha c = true) :
    isAsciiAlpha (lowerChar c) = true := by
  rcases lowerChar_cases c with h2 | h2
  · rwa [h2]
  · fin_cases h2 <;> decide

theorem lowerChar_scheme (c : Char) (h : schemeChar c = true) :
    schemeChar (lowerChar c) = true := by
  rcases lowerChar_cases c with h2 | h2
  · rwa [h2]
  · fin_cases h2 <;> decide

theorem alpha_schemeChar (c : Char) (h : isAsciiAlpha c = true) : schemeChar c = true := by
  simp [schemeChar, h]

theorem schemeChar_ne (c : Char) (h : schemeChar c = true) :
    c ≠ ':' ∧ c ≠ '/' ∧ c ≠ '?' ∧ c ≠ '#' ∧ c ≠ ';' ∧ isCtl c = false := by
  have hne : ∀ d : Char, schemeChar d = false → c ≠ d := by
    intro d hd heq
    rw [heq, hd] at h
    exact Bool.false_ne_true h
  refine ⟨hne ':' (by decide), hne '/' (by decide), hne '?' (by decide),
          hne '#' (by decide), hne ';' (by decide), ?_⟩
  have h1 : c ≠ '\t' := hne '\t' (by decide)
  have h2 : c ≠ '\r' := hne '\r' (by decide)
  have h3 : c ≠ '\n' := hne '\n' (by decide)
  simp [isCtl, h1, h2, h3]

theorem lowerL_idem (l : List Char) : lowerL (lowerL l) = lowerL l := by
  unfold lowerL
  rw [List.map_map]
  exact List.map_congr_left (fun c _ => lowerChar_idem c)

/-! ## List splitting lemmas -/

theorem splitAtChar_of_not_mem {c : Char} {l : List Char} (h : c ∉ l) :
    splitAtChar c l = none := by
  induction l with
  | nil => rfl
  | cons x xs ih =>
    have hx : ¬x = c := fun hxc => h (hxc ▸ List.mem_cons_self x xs)
    have hxs : c ∉ xs := fun hm => h (List.mem_cons_of_mem x hm)
    simp [splitAtChar, hx, ih hxs]

theorem splitAtChar_none_not_mem {c : Char} {l : List Char}
    (h : splitAtChar c l = none) : c ∉ l := by
  induction l with
  | nil => simp
  | cons x xs ih =>
    by_cases hx : x = c
    · subst hx; simp [splitAtChar] at h
    · simp only [splitAtChar, if_neg hx] at h
      have : splitAtChar c xs = none := by
        cases h2 : splitAtChar c xs with
        | none => rfl
        | some p => rw [h2] at h; simp at h
      intro hm
      rcases List.mem_cons.mp hm with h3 | h3
      · exact hx h3.symm
      · exact ih this h3

theorem splitAtChar_app {c : Char} {a b : List Char} (h : c ∉ a) :
    splitAtChar c (a ++ c :: b) = some (a, b) := by
  induction a with
  | nil => simp [splitAtChar]
  | cons x xs ih =>
    have hx : ¬x = c := fun hxc => h (hxc ▸ List.mem_cons_self x xs)
    have hxs : c ∉ xs := fun hm => h (List.mem_cons_of_mem x hm)
    simp [splitAtChar, hx, ih hxs]

theorem splitAtChar_some {c : Char} {l a b : List Char}
    (h : splitAtChar c l = some (a, b)) : l = a ++ c :: b ∧ c ∉ a := by
  induction l generalizing a b with
  | nil => simp [splitAtChar] at h
  | cons x xs ih =>
    by_cases hx : x = c
    · rw [hx]
      rw [hx] at h
      have heq : splitAtChar c (c :: xs) = some ([], xs) := by simp [splitAtChar]
      rw [heq] at h
      injection h with h'
      injection h' with h1 h2
      subst h1; subst h2; simp
    · simp only [splitAtChar, if_neg hx] at h
      cases h2 : splitAtChar c xs with
      | none => rw [h2] at h; simp at h
      | some p =>
        obtain ⟨p1, p2⟩ := p
        rw [h2] at h
        simp only [Option.map_some', Option.some.injEq, Prod.mk.injEq] at h
        obtain ⟨h3, h4⟩ := h
        subst h3; subst h4
        obtain ⟨hl, hna⟩ := ih h2
        constructor
        · rw [hl]; rfl
        · intro hm
          rcases List.mem_cons.mp hm with h5 | h5
          · exact hx h5.symm
          · exact hna h5


/-! ## takeWhile, dropWhile and rstrip lemmas -/

theorem takeWhile_app_all (p : Char → Bool) {a : List Char} (b : List Char)
    (h : ∀ x ∈ a, p x = true) :
    (a ++ b).takeWhile p = a ++ b.takeWhile p := by
  induction a with
  | nil => simp
  | cons x xs ih =>
    have hx : p x = true := h x (List.mem_cons_self x xs)
    simp [List.takeWhile_cons, hx, ih (fun y hy => h y (List.mem_cons_of_mem x hy))]

theorem dropWhile_app_all (p : Char → Bool) {a : List Char} (b : List Char)
    (h : ∀ x ∈ a, p x = true) :
    (a ++ b).dropWhile p = b.dropWhile p := by
  induction a with
  | nil => simp
  | cons x xs ih =>
    have hx : p x = true := h x (List.mem_cons_self x xs)
    simp [List.dropWhile_cons, hx, ih (fun y hy => h y (List.mem_cons_of_mem x hy))]

theorem dropWhile_head_false (p : Char → Bool) (l : List Char) :
    l.dropWhile p = [] ∨ ∃ x t, l.dropWhile p = x :: t ∧ p x = false := by
  induction l with
  | nil => left; rfl
  | cons c t ih =>
    by_cases hc : p c = true
    · simpa [List.dropWhile_cons, hc] using ih
    · right
      have hc2 : p c = false := by simpa using hc
      exact ⟨c, t, by simp [List.dropWhile_cons, hc2], hc2⟩

theorem mem_takeWhile_sub {p : Char → Bool} {l : List Char} {x : Char}
    (h : x ∈ l.takeWhile p) : x ∈ l ∧ p x = true := by
  induction l with
  | nil => simp at h
  | cons c t ih =>
    by_cases hc : p c = true
    · rw [List.takeWhile_cons, if_pos hc] at h
      rcases List.mem_cons.mp h with rfl | h1
      · exact ⟨List.mem_cons_self x t, hc⟩
      · obtain ⟨ha, hb⟩ := ih h1
        exact ⟨List.mem_cons_of_mem c ha, hb⟩
    · rw [List.takeWhile_cons, if_neg hc] at h
      simp at h

theorem mem_dropWhile_sub {p : Char → Bool} {l : List Char} {x : Char}
    (h : x ∈ l.dropWhile p) : x ∈ l := by
  induction l with
  | nil => simp at h
  | cons c t ih =>
    by_cases hc : p c = true
    · rw [List.dropWhile_cons, if_pos hc] at h
      exact List.mem_cons_of_mem c (ih h)
    · rwa [List.dropWhile_cons, if_neg hc] at h

theorem dropWhile_app_left (p : Char → Bool) {x : List Char} (y : List Char)
    (h : x.dropWhile p ≠ []) :
    (x ++ y).dropWhile p = x.dropWhile p ++ y := by
  induction x with
  | nil => simp at h
  | cons c t ih =>
    by_cases hc : p c = true
    · have h2 : t.dropWhile p ≠ [] := by
        rw [List.dropWhile_cons, if_pos hc] at h; exact h
      simp only [List.cons_append, List.dropWhile_cons, hc, if_true]
      exact ih h2
    · have hc2 : p c = false := by simpa using hc
      simp [List.cons_append, List.dropWhile_cons, hc2]

theorem dropWhile_app_nil (p : Char → Bool) {x : List Char} (y : List Char)
    (h : x.dropWhile p = []) :
    (x ++ y).dropWhile p = y.dropWhile p := by
  induction x with
  | nil => simp
  | cons c t ih =>
    by_cases hc : p c = true
    · have h2 : t.dropWhile p = [] := by
        rw [List.dropWhile_cons, if_pos hc] at h; exact h
      simp [List.cons_append, List.dropWhile_cons, hc, ih h2]
    · rw [List.dropWhile_cons, if_neg hc] at h
      simp at h

theorem dropWhile_dropWhile (p : Char → Bool) (l : List Char) :
    (l.dropWhile p).dropWhile p = l.dropWhile p := by
  rcases dropWhile_head_false p l with h | ⟨x, t, h, hx⟩
  · rw [h]; rfl
  · rw [h, List.dropWhile_cons, if_neg (by simp [hx])]

theorem rstrip_app_ne {a b : List Char} (h : rstripSlashL b ≠ []) :
    rstripSlashL (a ++ b) = a ++ rstripSlashL b := by
  unfold rstripSlashL at *
  have h2 : b.reverse.dropWhile (fun c => c = '/') ≠ [] := by
    intro h3
    rw [h3] at h
    simp at h
  rw [List.reverse_append, dropWhile_app_left _ a.reverse h2, List.reverse_append,
      List.reverse_reverse]

theorem rstrip_app_nil {a b : List Char} (h : rstripSlashL b = []) :
    rstripSlashL (a ++ b) = rstripSlashL a := by
  unfold rstripSlashL at *
  have h2 : b.reverse.dropWhile (fun c => c = '/') = [] := by
    have h3 := congrArg List.reverse h
    rwa [List.reverse_reverse, List.reverse_nil] at h3
  rw [List.reverse_append, dropWhile_app_nil _ a.reverse h2]

theorem rstrip_concat_ne {a : List Char} {c : Char} (h : ¬c = '/') :
    rstripSlashL (a ++ [c]) = a ++ [c] := by
  unfold rstripSlashL
  have h1 : (a ++ [c]).reverse = c :: a.reverse := by simp
  rw [h1, List.dropWhile_cons, if_neg (by simp [h])]
  simp

theorem rstrip_idem (l : List Char) : rstripSlashL (rstripSlashL l) = rstripSlashL l := by
  unfold rstripSlashL
  rw [List.reverse_reverse, dropWhile_dropWhile]

theorem rstrip_mem {l : List Char} {x : Char} (h : x ∈ rstripSlashL l) : x ∈ l := by
  unfold rstripSlashL at h
  rw [List.mem_reverse] at h
  exact List.mem_reverse.mp (mem_dropWhile_sub h)

theorem rstrip_decomp (l : List Char) : ∃ t, l = rstripSlashL l ++ t := by
  refine ⟨(l.reverse.takeWhile (fun c => c = '/')).reverse, ?_⟩
  have h1 : l.reverse =
      l.reverse.takeWhile (fun c => c = '/') ++ l.reverse.dropWhile (fun c => c = '/') :=
    (List.takeWhile_append_dropWhile _ _).symm
  have h2 := congrArg List.reverse h1
  rw [List.reverse_reverse, List.reverse_append] at h2
  exact h2

theorem rstrip_head {l : List Char} {c : Char} {t : List Char} (hl : l = c :: t)
    (hne : rstripSlashL l ≠ []) : ∃ t2, rstripSlashL l = c :: t2 := by
  obtain ⟨r, hr⟩ := rstrip_decomp l
  cases h2 : rstripSlashL l with
  | nil => exact absurd h2 hne
  | cons d t3 =>
    rw [h2, hl, List.cons_append] at hr
    injection hr with h4 h5
    exact ⟨t3, by rw [h4]⟩

/-! ## Facts about the components `urlparse` produces -/

theorem startsL_two {cs : List Char} {c1 c2 : Char} (h : startsL cs [c1, c2] = true) :
    ∃ t, cs = c1 :: c2 :: t := by
  cases cs with
  | nil => simp [startsL] at h
  | cons x xs =>
    cases xs with
    | nil => simp [startsL] at h
    | cons y ys =>
      simp only [startsL, Bool.and_eq_true, decide_eq_true_eq] at h
      obtain ⟨h1, h2, _⟩ := h
      exact ⟨ys, by rw [h1, h2]⟩

theorem schemeSplit_none {cs : List Char} (h : splitAtChar ':' cs = none) :
    schemeSplit cs = ([], cs) := by
  unfold schemeSplit
  rw [h]

theorem schemeSplit_some {cs a b : List Char} (h : splitAtChar ':' cs = some (a, b)) :
    schemeSplit cs = if schemeOk a then (lowerL a, b) else ([], cs) := by
  unfold schemeSplit
  rw [h]

theorem schemeSplit_valid (cs : List Char) (hne : (schemeSplit cs).1 ≠ []) :
    ValidSchemeP (schemeSplit cs).1 ∧ lowerL (schemeSplit cs).1 = (schemeSplit cs).1 := by
  cases h : splitAtChar ':' cs with
  | none => rw [schemeSplit_none h] at hne; exact absurd rfl hne
  | some p =>
    obtain ⟨a, b⟩ := p
    rw [schemeSplit_some h] at hne ⊢
    by_cases hok : schemeOk a = true
    · rw [if_pos hok] at hne ⊢
      cases a with
      | nil => simp [schemeOk] at hok
      | cons b0 brest =>
        have hcond := hok
        simp only [schemeOk, Bool.and_eq_true] at hcond
        obtain ⟨h1, h2⟩ := hcond
        constructor
        · refine ⟨lowerChar b0, lowerL brest, rfl, lowerChar_alpha b0 h1, ?_⟩
          rw [List.all_eq_true] at h2 ⊢
          intro x hx
          obtain ⟨y, hy, rfl⟩ := List.mem_map.mp hx
          exact lowerChar_scheme y (h2 y hy)
        · exact lowerL_idem (b0 :: brest)
    · rw [if_neg hok] at hne; exact absurd rfl hne

theorem netlocSplit_fst_delim (cs : List Char) :
    ∀ x ∈ (netlocSplit cs).1, netlocDelim x = false := by
  unfold netlocSplit
  split
  · intro x hx
    have h2 := (mem_takeWhile_sub hx).2
    simpa using h2
  · intro x hx
    simp at hx

theorem netlocSplit_fst_sub (cs : List Char) :
    ∀ x ∈ (netlocSplit cs).1, x ∈ cs := by
  unfold netlocSplit
  split
  · intro x hx
    exact List.mem_of_mem_drop ((mem_takeWhile_sub hx).1)
  · intro x hx
    simp at hx

theorem netlocSplit_snd_sub (cs : List Char) :
    ∀ x ∈ (netlocSplit cs).2, x ∈ cs := by
  unfold netlocSplit
  split
  · intro x hx
    exact List.mem_of_mem_drop (mem_dropWhile_sub hx)
  · intro x hx
    exact hx

theorem netlocSplit_snd_head (cs : List Char) (hne : (netlocSplit cs).1 ≠ []) :
    (netlocSplit cs).2 = [] ∨
      ∃ d t, (netlocSplit cs).2 = d :: t ∧ netlocDelim d = true := by
  unfold netlocSplit at *
  by_cases hc : startsL cs ['/', '/'] = true
  · rw [if_pos hc] at hne ⊢
    rcases dropWhile_head_false (fun c => !netlocDelim c) (cs.drop 2) with h | ⟨x, t, h, hx⟩
    · left; exact h
    · right
      exact ⟨x, t, h, by simpa using hx⟩
  · rw [if_neg hc] at hne
    exact absurd rfl hne

theorem schemeSplit_snd_sub (cs : List Char) :
    ∀ x ∈ (schemeSplit cs).2, x ∈ cs := by
  cases h : splitAtChar ':' cs with
  | none => rw [schemeSplit_none h]; intro x hx; exact hx
  | some p =>
    obtain ⟨a, b⟩ := p
    obtain ⟨hl, hna⟩ := splitAtChar_some h
    rw [schemeSplit_some h]
    by_cases hok : schemeOk a = true
    · rw [if_pos hok]
      intro x hx
      rw [hl]
      exact List.mem_append_right _ (List.mem_cons_of_mem _ hx)
    · rw [if_neg hok]
      intro x hx
      exact hx

theorem splitKeep_fst (c : Char) (cs : List Char) :
    c ∉ (splitKeep c cs).1 ∧ ∀ x ∈ (splitKeep c cs).1, x ∈ cs := by
  unfold splitKeep
  cases h : splitAtChar c cs with
  | none =>
    exact ⟨splitAtChar_none_not_mem h, fun x hx => hx⟩
  | some p =>
    obtain ⟨a, b⟩ := p
    obtain ⟨hl, hna⟩ := splitAtChar_some h
    refine ⟨hna, fun x hx => ?_⟩
    rw [hl]
    exact List.mem_append_left _ hx

theorem splitKeep_cons {c d : Char} {cs : List Char} (h : ¬d = c) :
    ∃ t, (splitKeep c (d :: cs)).1 = d :: t := by
  unfold splitKeep
  cases h2 : splitAtChar c (d :: cs) with
  | none => exact ⟨cs, rfl⟩
  | some p =>
    obtain ⟨a, b⟩ := p
    obtain ⟨hl, hna⟩ := splitAtChar_some h2
    cases a with
    | nil =>
      rw [List.nil_append] at hl
      injection hl with h3 h4
      exact absurd h3 h
    | cons a0 t =>
      rw [List.cons_append] at hl
      injection hl with h3 h4
      exact ⟨t, by rw [h3]⟩

theorem splitKeep_nil (c : Char) : splitKeep c [] = ([], []) := rfl

theorem rev_dropWhile_decomp (p : Char → Bool) (l : List Char) :
    l = (l.reverse.dropWhile p).reverse ++ (l.reverse.takeWhile p).reverse := by
  have h1 : l.reverse = l.reverse.takeWhile p ++ l.reverse.dropWhile p :=
    (List.takeWhile_append_dropWhile _ _).symm
  have h2 := congrArg List.reverse h1
  rwa [List.reverse_reverse, List.reverse_append] at h2

theorem paramsSplit_no_semi {cs : List Char} (h : ';' ∉ cs) : paramsSplit cs = (cs, []) := by
  unfold paramsSplit
  by_cases hs : '/' ∈ cs
  · rw [if_pos hs]
    have hb : ';' ∉ (cs.reverse.takeWhile (fun c => !(c = '/'))).reverse := by
      intro hm
      rw [List.mem_reverse] at hm
      exact h (List.mem_reverse.mp (mem_takeWhile_sub hm).1)
    rw [splitAtChar_of_not_mem hb]
  · rw [if_neg hs, splitAtChar_of_not_mem h]

theorem paramsSplit_fst_sub (cs : List Char) :
    ∀ x ∈ (paramsSplit cs).1, x ∈ cs := by
  unfold paramsSplit
  by_cases hs : '/' ∈ cs
  · rw [if_pos hs]
    cases h : splitAtChar ';' ((cs.reverse.takeWhile (fun c => !(c = '/'))).reverse) with
    | none => intro x hx; exact hx
    | some p =>
      obtain ⟨a, b⟩ := p
      obtain ⟨hl, hna⟩ := splitAtChar_some h
      intro x hx
      rcases List.mem_append.mp hx with h2 | h2
      · rw [List.mem_reverse] at h2
        exact List.mem_reverse.mp (mem_dropWhile_sub h2)
      · have h3 : x ∈ (cs.reverse.takeWhile (fun c => !(c = '/'))).reverse := by
          rw [hl]
          exact List.mem_append_left _ h2
        rw [List.mem_reverse] at h3
        exact List.mem_reverse.mp (mem_takeWhile_sub h3).1
  · rw [if_neg hs]
    cases h : splitAtChar ';' cs with
    | none => intro x hx; exact hx
    | some p =>
      obtain ⟨a, b⟩ := p
      obtain ⟨hl, hna⟩ := splitAtChar_some h
      intro x hx
      rw [hl]
      exact List.mem_append_left _ hx

theorem paramsSplit_cons_slash {t : List Char} :
    ∃ t2, (paramsSplit ('/' :: t)).1 = '/' :: t2 := by
  have hs : '/' ∈ ('/' :: t) := List.mem_cons_self _ _
  have hha : ∃ ta, (('/' :: t).reverse.dropWhile (fun c => !(c = '/'))).reverse = '/' :: ta := by
    have hne : ('/' :: t).reverse.dropWhile (fun c => !(c = '/')) ≠ [] := by
      intro h0
      rw [List.dropWhile_eq_nil_iff] at h0
      have := h0 '/' (List.mem_reverse.mpr hs)
      simp at this
    have hd := rev_dropWhile_decomp (fun c => !(c = '/')) ('/' :: t)
    cases h2 : (('/' :: t).reverse.dropWhile (fun c => !(c = '/'))).reverse with
    | nil =>
      exfalso
      apply hne
      have := congrArg List.reverse h2
      rwa [List.reverse_reverse, List.reverse_nil] at this
    | cons d td =>
      rw [h2, List.cons_append] at hd
      injection hd with h3 h4
      exact ⟨td, by rw [← h3]⟩
  obtain ⟨ta, hta⟩ := hha
  unfold paramsSplit
  rw [if_pos hs]
  cases h : splitAtChar ';' ((('/' :: t).reverse.takeWhile (fun c => !(c = '/'))).reverse) with
  | none => exact ⟨t, rfl⟩
  | some p =>
    obtain ⟨a, b⟩ := p
    rw [hta]
    exact ⟨ta ++ a, by simp⟩

/-! ## Field-level facts about `urlparse` -/

theorem urlparse_scheme_eq (u : String) :
    (urlparse u).scheme = (schemeSplit (stripCtl u.data)).1 := rfl

theorem urlparse_netloc_eq (u : String) :
    (urlparse u).netloc = (netlocSplit (schemeSplit (stripCtl u.data)).2).1 := rfl

theorem urlparse_path_eq (u : String) :
    (urlparse u).path =
      (paramsSplit (splitKeep '?' (splitKeep '#'
        (netlocSplit (schemeSplit (stripCtl u.data)).2).2).1).1).1 := rfl

theorem stripCtl_no_ctl (l : List Char) : ∀ x ∈ stripCtl l, isCtl x = false := by
  intro x hx
  have h2 := (List.mem_filter.mp hx).2
  simpa using h2

theorem urlparse_scheme_valid {u : String} (h : (urlparse u).scheme ≠ []) :
    ValidSchemeP (urlparse u).scheme ∧ lowerL (urlparse u).scheme = (urlparse u).scheme := by
  rw [urlparse_scheme_eq] at *
  exact schemeSplit_valid _ h

theorem urlparse_netloc_delim (u : String) :
    ∀ x ∈ (urlparse u).netloc, netlocDelim x = false := by
  rw [urlparse_netloc_eq]
  exact netlocSplit_fst_delim _

theorem urlparse_netloc_ctl (u : String) :
    ∀ x ∈ (urlparse u).netloc, isCtl x = false := by
  rw [urlparse_netloc_eq]
  intro x hx
  exact stripCtl_no_ctl u.data x
    (schemeSplit_snd_sub _ x (netlocSplit_fst_sub _ x hx))

theorem urlparse_path_sub (u : String) :
    ∀ x ∈ (urlparse u).path, x ∈ stripCtl u.data := by
  rw [urlparse_path_eq]
  intro x hx
  have h1 := paramsSplit_fst_sub _ x hx
  have h2 := (splitKeep_fst '?' _).2 x h1
  have h3 := (splitKeep_fst '#' _).2 x h2
  have h4 := netlocSplit_snd_sub _ x h3
  exact schemeSplit_snd_sub _ x h4

theorem urlparse_path_ctl (u : String) :
    ∀ x ∈ (urlparse u).path, isCtl x = false :=
  fun x hx => stripCtl_no_ctl u.data x (urlparse_path_sub u x hx)

theorem urlparse_path_no_query (u : String) : '?' ∉ (urlparse u).path := by
  rw [urlparse_path_eq]
  intro hx
  exact (splitKeep_fst '?' _).1 (paramsSplit_fst_sub _ _ hx)

theorem urlparse_path_no_frag (u : String) : '#' ∉ (urlparse u).path := by
  rw [urlparse_path_eq]
  intro hx
  have h1 := paramsSplit_fst_sub _ _ hx
  exact (splitKeep_fst '#' _).1 ((splitKeep_fst '?' _).2 _ h1)

theorem splitKeep_head (c : Char) (cs : List Char) : splitKeep c (c :: cs) = ([], cs) := by
  unfold splitKeep
  rw [show splitAtChar c (c :: cs) = some ([], cs) from by simp [splitAtChar]]

theorem paramsSplit_nil : paramsSplit [] = ([], []) := rfl

theorem urlparse_path_head {u : String} (hn : (urlparse u).netloc ≠ []) :
    (urlparse u).path = [] ∨ ∃ t, (urlparse u).path = '/' :: t := by
  rw [urlparse_path_eq]
  rw [urlparse_netloc_eq] at hn
  rcases netlocSplit_snd_head _ hn with h | ⟨d, t, h, hd⟩
  · left
    rw [h]
    rfl
  · rw [h]
    have hd3 : d = '/' ∨ d = '?' ∨ d = '#' := by
      have hd2 : (d = '/' ∨ d = '?') ∨ d = '#' := by simpa [netlocDelim] using hd
      tauto
    rcases hd3 with rfl | rfl | rfl
    · -- head '/': preserved through fragment, query and parameter splits
      obtain ⟨t2, h2⟩ := @splitKeep_cons '#' '/' t (by decide)
      rw [h2]
      obtain ⟨t3, h3⟩ := @splitKeep_cons '?' '/' t2 (by decide)
      rw [h3]
      obtain ⟨t4, h4⟩ := @paramsSplit_cons_slash t3
      right
      exact ⟨t4, h4⟩
    · -- head '?': the query split erases the rest of the path
      obtain ⟨t2, h2⟩ := @splitKeep_cons '#' '?' t (by decide)
      rw [h2, splitKeep_head '?' t2]
      left
      rfl
    · -- head '#': the fragment split erases the rest of the path
      rw [splitKeep_head '#' t]
      left
      rfl

/-! ## The canonical shape `normalize_url` produces, and reparsing it -/

theorem rstrip_three {s n p : List Char} (hn : n ≠ [])
    (hnd : ∀ x ∈ n, netlocDelim x = false) :
    rstripSlashL (s ++ ':' :: '/' :: '/' :: (n ++ p))
      = s ++ ':' :: '/' :: '/' :: (n ++ rstripSlashL p) := by
  have h1 : s ++ ':' :: '/' :: '/' :: (n ++ p)
      = (s ++ ':' :: '/' :: '/' :: n) ++ p := by simp
  by_cases h2 : rstripSlashL p = []
  · rw [h1, rstrip_app_nil h2, h2]
    rcases List.eq_nil_or_concat n with rfl | ⟨n', c, hn'⟩
    · exact absurd rfl hn
    · rw [List.concat_eq_append] at hn'
      subst hn'
      have hc : ¬c = '/' := by
        have h4 := hnd c (by simp)
        intro hcc
        rw [hcc] at h4
        simp [netlocDelim] at h4
      have h3 : s ++ ':' :: '/' :: '/' :: (n' ++ [c])
          = (s ++ ':' :: '/' :: '/' :: n') ++ [c] := by simp
      rw [h3, rstrip_concat_ne hc]
      simp
  · rw [h1, rstrip_app_ne h2]
    simp

theorem normalize_shape {u : String} (hn : (urlparse u).netloc ≠ []) :
    normalize_url u =
      ofChars ((urlparse u).scheme ++ ':' :: '/' :: '/' ::
        ((urlparse u).netloc ++ pathNorm (urlparse u).path)) := by
  unfold normalize_url pathNorm
  by_cases hlen : (urlparse u).path.length > 1
  · rw [if_pos hlen, if_pos hlen]
    congr 1
    exact rstrip_three hn (urlparse_netloc_delim u)
  · rw [if_neg hlen, if_neg hlen]

theorem pathNorm_sub (p : List Char) : ∀ x ∈ pathNorm p, x ∈ p := by
  unfold pathNorm
  split
  · exact fun x hx => rstrip_mem hx
  · exact fun x hx => hx

theorem pathNorm_idem (p : List Char) : pathNorm (pathNorm p) = pathNorm p := by
  unfold pathNorm
  by_cases h : p.length > 1
  · rw [if_pos h]
    by_cases h2 : (rstripSlashL p).length > 1
    · rw [if_pos h2, rstrip_idem]
    · rw [if_neg h2]
  · rw [if_neg h, if_neg h]

theorem pathNorm_head {p : List Char} (h : p = [] ∨ ∃ t, p = '/' :: t) :
    pathNorm p = [] ∨ ∃ t, pathNorm p = '/' :: t := by
  rcases h with rfl | ⟨t, rfl⟩
  · left; rfl
  · unfold pathNorm
    by_cases h2 : ('/' :: t).length > 1
    · rw [if_pos h2]
      by_cases h3 : rstripSlashL ('/' :: t) = []
      · left; exact h3
      · right; exact rstrip_head rfl h3
    · rw [if_neg h2]
      right
      exact ⟨t, rfl⟩

theorem urlparse_canonical {s n P : List Char}
    (hv : ValidSchemeP s) (hlow : lowerL s = s)
    (hnd : ∀ x ∈ n, netlocDelim x = false)
    (hnc : ∀ x ∈ n, isCtl x = false)
    (hPc : ∀ x ∈ P, isCtl x = false)
    (hPq : '?' ∉ P) (hPh : '#' ∉ P) (hPs : ';' ∉ P)
    (hPhead : P = [] ∨ ∃ t, P = '/' :: t) :
    urlparse (ofChars (s ++ ':' :: '/' :: '/' :: (n ++ P))) = ⟨s, n, P, [], [], []⟩ := by
  obtain ⟨b0, br, hs0, hb0, hbr⟩ := hv
  have hsch : ∀ x ∈ s, schemeChar x = true := by
    intro x hx
    rw [hs0] at hx
    rcases List.mem_cons.mp hx with rfl | hx2
    · exact alpha_schemeChar x hb0
    · exact (List.all_eq_true.mp hbr) x hx2
  have hstrip : stripCtl (s ++ ':' :: '/' :: '/' :: (n ++ P))
      = s ++ ':' :: '/' :: '/' :: (n ++ P) := by
    rw [stripCtl, List.filter_eq_self]
    intro a ha
    rcases List.mem_append.mp ha with h1 | h1
    · simp [(schemeChar_ne a (hsch a h1)).2.2.2.2.2]
    · rcases List.mem_cons.mp h1 with rfl | h2
      · decide
      · rcases List.mem_cons.mp h2 with rfl | h3
        · decide
        · rcases List.mem_cons.mp h3 with rfl | h4
          · decide
          · rcases List.mem_append.mp h4 with h5 | h5
            · simp [hnc a h5]
            · simp [hPc a h5]
  have hcolon : ':' ∉ s := fun hm => ((schemeChar_ne _ (hsch _ hm)).1 rfl)
  have hsplit : splitAtChar ':' (s ++ ':' :: ('/' :: '/' :: (n ++ P)))
      = some (s, '/' :: '/' :: (n ++ P)) := splitAtChar_app hcolon
  have hok : schemeOk s = true := by
    rw [hs0]
    simp [schemeOk, hb0, hbr]
  have hscheme : schemeSplit (s ++ ':' :: '/' :: '/' :: (n ++ P))
      = (s, '/' :: '/' :: (n ++ P)) := by
    rw [schemeSplit_some hsplit, if_pos hok, hlow]
  have hq : ∀ x ∈ n, (fun c => !netlocDelim c) x = true := by
    intro x hx
    simp [hnd x hx]
  have htake : (n ++ P).takeWhile (fun c => !netlocDelim c) = n := by
    rw [takeWhile_app_all _ P hq]
    rcases hPhead with rfl | ⟨t, rfl⟩
    · simp
    · rw [List.takeWhile_cons, if_neg (by simp [netlocDelim])]
      simp
  have hdrop : (n ++ P).dropWhile (fun c => !netlocDelim c) = P := by
    rw [dropWhile_app_all _ P hq]
    rcases hPhead with rfl | ⟨t, rfl⟩
    · simp
    · rw [List.dropWhile_cons, if_neg (by simp [netlocDelim])]
  have hnet : netlocSplit ('/' :: '/' :: (n ++ P)) = (n, P) := by
    unfold netlocSplit
    rw [if_pos (by simp [startsL])]
    have hdrop2 : ('/' :: '/' :: (n ++ P)).drop 2 = n ++ P := rfl
    rw [hdrop2, htake, hdrop]
  have hfrag : splitKeep '#' P = (P, []) := by
    unfold splitKeep
    rw [splitAtChar_of_not_mem hPh]
  have hquery : splitKeep '?' P = (P, []) := by
    unfold splitKeep
    rw [splitAtChar_of_not_mem hPq]
  have hparams : paramsSplit P = (P, []) := paramsSplit_no_semi hPs
  have hdata2 : stripCtl (ofChars (s ++ ':' :: '/' :: '/' :: (n ++ P))).data
      = s ++ ':' :: '/' :: '/' :: (n ++ P) := hstrip
  simp [urlparse, hdata2, hscheme, hnet, hfrag, hquery, hparams]

/-- Helper: the exact string `normalize_url` emits for a netloc-bearing URL. -/
theorem normalize_reparse {u : String}
    (hs : (urlparse u).scheme ≠ [])
    (hn : (urlparse u).netloc ≠ [])
    (hp : ';' ∉ (urlparse u).path) :
    urlparse (normalize_url u)
      = ⟨(urlparse u).scheme, (urlparse u).netloc, pathNorm (urlparse u).path,
         [], [], []⟩ := by
  obtain ⟨hv, hlow⟩ := urlparse_scheme_valid hs
  rw [normalize_shape hn]
  exact urlparse_canonical hv hlow (urlparse_netloc_delim u) (urlparse_netloc_ctl u)
    (fun x hx => urlparse_path_ctl u x (pathNorm_sub _ x hx))
    (fun hx => urlparse_path_no_query u (pathNorm_sub _ _ hx))
    (fun hx => urlparse_path_no_frag u (pathNorm_sub _ _ hx))
    (fun hx => hp (pathNorm_sub _ _ hx))
    (pathNorm_head (urlparse_path_head hn))

/-- C5 (amended): URL normalization is idempotent on every URL string whose
parse has a non-empty scheme and a non-empty netloc and whose parsed path
contains no semicolon — in particular on every ordinary absolute
http/https URL.  The unrestricted claim (`for every URL string u`) is false
on the code: see `normalize_url_not_idempotent`. -/
theorem normalize_url_idem (u : String)
    (hs : (urlparse u).scheme ≠ [])
    (hn : (urlparse u).netloc ≠ [])
    (hp : ';' ∉ (urlparse u).path) :
    normalize_url (normalize_url u) = normalize_url u := by
  have hre := normalize_reparse hs hn hp
  have hn2 : (urlparse (normalize_url u)).netloc ≠ [] := by rw [hre]; exact hn
  rw [normalize_shape hn2, hre]
  show ofChars ((urlparse u).scheme ++ ':' :: '/' :: '/' ::
      ((urlparse u).netloc ++ pathNorm (pathNorm (urlparse u).path)))
    = normalize_url u
  rw [pathNorm_idem, ← normalize_shape hn]

/-- C5 counterexample: `normalize_url` is not idempotent on every URL
string.  For the scheme-less input `"abc"` the function returns
`"://abc"`, and normalizing that again returns `"://://abc"`. -/
theorem normalize_url_not_idempotent :
    ¬normalize_url (normalize_url "abc") = normalize_url "abc" := by decide

/-- Witness discharging the hypotheses of `normalize_url_idem` at the
concrete URL `https://example.com/about/`. -/
theorem normalize_url_idem_witness :
    ((urlparse "https://example.com/about/").scheme ≠ [] ∧
     (urlparse "https://example.com/about/").netloc ≠ [] ∧
     ';' ∉ (urlparse "https://example.com/about/").path) ∧
    normalize_url (normalize_url "https://example.com/about/")
      = normalize_url "https://example.com/about/" :=
  ⟨⟨by decide, by decide, by decide⟩,
   normalize_url_idem "https://example.com/about/" (by decide) (by decide) (by decide)⟩

/-! ## Classifier lemmas and claims C1, C2, C7, C10 -/

theorem collapseAux_len (l : List Char) : ∀ b, (collapseAux b l).length ≤ l.length := by
  induction l with
  | nil => intro b; simp [collapseAux]
  | cons c cs ih =>
    intro b
    unfold collapseAux
    by_cases hc : isPyWs c = true
    · rw [if_pos hc]
      by_cases hb : b = true
    -- both sub-branches shrink or keep the length
      · rw [if_pos hb]
        exact Nat.le_succ_of_le (ih true)
      · rw [if_neg hb]
        simpa using ih true
    · rw [if_neg hc]
      simpa using ih false

theorem dropWhile_len_le (p : Char → Bool) (l : List Char) :
    (l.dropWhile p).length ≤ l.length := by
  induction l with
  | nil => simp
  | cons c cs ih =>
    by_cases hc : p c = true
    · rw [List.dropWhile_cons, if_pos hc]
      exact Nat.le_succ_of_le ih
    · rw [List.dropWhile_cons, if_neg hc]

theorem pyStripL_len (l : List Char) : (pyStripL l).length ≤ l.length := by
  unfold pyStripL
  rw [List.length_reverse]
  calc ((l.dropWhile isPyWs).reverse.dropWhile isPyWs).length
      ≤ (l.dropWhile isPyWs).reverse.length := dropWhile_len_le _ _
    _ = (l.dropWhile isPyWs).length := List.length_reverse _
    _ ≤ l.length := dropWhile_len_le _ _

theorem collapseStrip_le (s : String) : (collapseStrip s).length ≤ s.length := by
  show (pyStrip (ofChars (collapseAux false s.data))).length ≤ s.length
  calc (pyStrip (ofChars (collapseAux false s.data))).length
      ≤ (collapseAux false s.data).length := pyStripL_len _
    _ ≤ s.data.length := collapseAux_len _ false
    _ = s.length := rfl

theorem identify_eq_proseTail (el : Node)
    (hGate : ¬(getTextSp el).length < 20)
    (hHero : heroPart el (lowerStr (joinedClasses el)) = none)
    (hForm : formPart el = none) (hTable : tablePart el = none)
    (hList : listPart el = none) (hGal : galleryPart el = none) :
    identify_component_type el = proseTail el (getTextSp el) := by
  unfold identify_component_type
  rw [if_neg hGate, hHero, hForm, hTable, hList, hGal]

theorem proseTail_text_block (el : Node)
    (hHead : findAll (isTagIn ["h1", "h2", "h3", "h4", "h5"]) el = [])
    (hLen : (getTextSp el).length > 100)
    (hCol : (collapseStrip (getTextSp el)).length > 50) :
    proseTail el (getTextSp el)
      = some (.text_block (truncAfter 400 (collapseStrip (getTextSp el)))) := by
  unfold proseTail
  rw [if_pos hLen, hHead]
  show (if (collapseStrip (getTextSp el)).length > 50 then
      some (Component.text_block (truncAfter 400 (collapseStrip (getTextSp el))))
    else none)
    = some (Component.text_block (truncAfter 400 (collapseStrip (getTextSp el))))
  rw [if_pos hCol]

/-- C7 (amended): the TextBlock fallback fires only when the raw visible
text exceeds 100 characters as well; for every subtree matching none of
the higher-priority heuristics, containing no h1-h5 heading, with raw text
over 100 characters and whitespace-collapsed text over 50 characters, the
classifier returns a TextBlock holding the collapsed text truncated to 400
characters with an ellipsis.  The claim as stated (collapsed text over
roughly 50 characters suffices) is false: see
`text_block_claim_counterexample`. -/
theorem text_block_fallback (el : Node)
    (hHero : heroPart el (lowerStr (joinedClasses el)) = none)
    (hForm : formPart el = none) (hTable : tablePart el = none)
    (hList : listPart el = none) (hGal : galleryPart el = none)
    (hHead : findAll (isTagIn ["h1", "h2", "h3", "h4", "h5"]) el = [])
    (hLen : (getTextSp el).length > 100)
    (hCol : (collapseStrip (getTextSp el)).length > 50) :
    identify_component_type el
      = some (.text_block (truncAfter 400 (collapseStrip (getTextSp el)))) := by
  rw [identify_eq_proseTail el (by omega) hHero hForm hTable hList hGal]
  exact proseTail_text_block el hHead hLen hCol

/-- C7 counterexample: a subtree whose collapsed text has 59 characters
(over the ~50 threshold) and which matches no higher-priority heuristic,
but whose raw text does not exceed 100 characters, yields no component at
all rather than a TextBlock. -/
theorem text_block_claim_counterexample :
    heroPart div60 (lowerStr (joinedClasses div60)) = none ∧
    formPart div60 = none ∧ tablePart div60 = none ∧ listPart div60 = none ∧
    galleryPart div60 = none ∧
    (findAll (isTagIn ["h1", "h2", "h3", "h4", "h5"]) div60).isEmpty = true ∧
    (collapseStrip (getTextSp div60)).length > 50 ∧
    identify_component_type div60 = none := by
  refine ⟨?_, ?_, ?_, ?_, ?_, ?_, ?_, ?_⟩ <;> decide

/-- Witness discharging the hypotheses of `text_block_fallback` on the
concrete subtree `divLong`. -/
theorem text_block_fallback_witness :
    identify_component_type divLong
      = some (.text_block (truncAfter 400 (collapseStrip (getTextSp divLong)))) :=
  text_block_fallback divLong (by decide) (by decide) (by decide) (by decide)
    (by decide) (by rfl) (by decide) (by decide)

/-- C1 (amended): a subtree that satisfies the Form heuristic (it is a
form or contains one, with at least one surviving field) and the TextBlock
heuristic (long collapsed text), and does not trigger the higher-priority
HeroBanner arm, is classified as exactly one component of type form —
never as a text block and never as both.  The unamended claim omits the
HeroBanner proviso and is false: see `form_claim_counterexample`. -/
theorem form_beats_text_block (el : Node) (fs : List String)
    (hHero : heroPart el (lowerStr (joinedClasses el)) = none)
    (hForm : formPart el = some (Component.form fs))
    (hCol : (collapseStrip (getTextSp el)).length > 50) :
    identify_component_type el = some (Component.form fs) := by
  have hle := collapseStrip_le (getTextSp el)
  unfold identify_component_type
  rw [if_neg (by omega), hHero, hForm]

/-- C1 counterexample: a subtree satisfying both the Form heuristic (one
surviving field) and the TextBlock heuristic (collapsed text over 50, raw
text over 100 characters) but carrying a hero class is classified as a
hero banner, not as a form. -/
theorem form_claim_counterexample :
    formPart heroForm = some (Component.form ["Email Address"]) ∧
    (collapseStrip (getTextSp heroForm)).length > 50 ∧
    identify_component_type heroForm
      = some (Component.hero_banner "Welcome to the site!"
          "This paragraph is a subtitle of decent length here.") := by
  refine ⟨?_, ?_, ?_⟩ <;> decide

/-- Witness discharging the hypotheses of `form_beats_text_block` on the
concrete subtree `plainForm`. -/
theorem form_beats_text_block_witness :
    identify_component_type plainForm = some (Component.form ["Email Address"]) :=
  form_beats_text_block plainForm ["Email Address"] (by decide) (by decide) (by decide)

/-- C2 counterexample: for the exact table of the claim (header cells Name
and Age, data rows A 1 and B 2) the classifier returns no component at
all — the concatenated visible text has only 16 characters, below the
20-character minimum gate — and in particular not the claimed table
component. -/
theorem table_claim_counterexample :
    identify_component_type tableNameAge = none ∧
    ¬identify_component_type tableNameAge
        = some (Component.table (some ["Name", "Age"]) [["A", "1"], ["B", "2"]]) := by
  refine ⟨?_, ?_⟩ <;> decide

/-- C2 (amended): a table with header cells Name and Age and data rows
whose cells are long enough to pass the 20-character minimum gate is
classified as a table whose columns are the header texts, but whose
sample rows include the header row first — each row collects its td and
th cells — followed by the data rows. -/
theorem table_classification_includes_header_row :
    identify_component_type tableBig
      = some (Component.table (some ["Name", "Age"])
          [["Name", "Age"], ["Alice", "100"], ["Bobby", "200"]]) := by decide

/-! ## C10: long form labels are discarded -/

theorem titleAux_len (l : List Char) : ∀ b, (titleAux b l).length = l.length := by
  induction l with
  | nil => intro b; rfl
  | cons c cs ih =>
    intro b
    unfold titleAux
    by_cases hc : isAsciiAlpha c = true
    · rw [if_pos hc]
      simp [ih true]
    · rw [if_neg hc]
      simp [ih false]

theorem pyTitle_len (s : String) : (pyTitle s).length = s.length := by
  show (ofChars (titleAux false s.data)).length = s.length
  show (titleAux false s.data).length = s.data.length
  exact titleAux_len s.data false

theorem dedupKeys_sub [DecidableEq α] (l : List α) :
    ∀ seen, ∀ x ∈ dedupKeys seen l, x ∈ l := by
  induction l with
  | nil => intro seen x hx; simp [dedupKeys] at hx
  | cons a t ih =>
    intro seen x hx
    unfold dedupKeys at hx
    by_cases ha : a ∈ seen
    · rw [if_pos ha] at hx
      exact List.mem_cons_of_mem a (ih seen x hx)
    · rw [if_neg ha] at hx
      rcases List.mem_cons.mp hx with rfl | h2
      · exact List.mem_cons_self x t
      · exact List.mem_cons_of_mem a (ih (a :: seen) x h2)

theorem fieldLabel_short {inp : Node} {f : String} (h : fieldLabel inp = some f) :
    f.length < 50 := by
  unfold fieldLabel at h
  split at h
  · simp at h
  · split at h
    · simp at h
    · split at h
      · rename_i hcond
        injection h with h2
        obtain ⟨h3, h4⟩ := Bool.and_eq_true_iff.mp hcond
        rw [← h2, pyTitle_len]
        simpa using h4
      · simp at h

/-- C10: every candidate field whose cleaned label has 50 or more
characters is silently discarded, so every label in an emitted Form
component has fewer than 50 characters (title-casing preserves length in
the ASCII model of `str.title`). -/
theorem form_field_labels_short (el : Node) (fs : List String)
    (h : formPart el = some (Component.form fs)) :
    ∀ f ∈ fs, f.length < 50 := by
  unfold formPart at h
  cases h2 : (if isTag "form" el then some el else findFirst (isTag "form") el) with
  | none => rw [h2] at h; simp at h
  | some f0 =>
    rw [h2] at h
    have h3 : (if !(formFields f0 = []) then
        some (Component.form (dedupFirst (formFields f0))) else none)
      = some (Component.form fs) := h
    by_cases h4 : formFields f0 = []
    · rw [if_neg (by simp [h4])] at h3
      simp at h3
    · rw [if_pos (by simp [h4])] at h3
      injection h3 with h5
      injection h5 with h6
      intro f hf
      rw [← h6] at hf
      have h7 : f ∈ formFields f0 := dedupKeys_sub _ [] f hf
      obtain ⟨inp, hinp, hlab⟩ := List.mem_filterMap.mp h7
      exact fieldLabel_short hlab

/-- Witness instantiating `form_field_labels_short` on a concrete form
whose 65-character placeholder is discarded while the short name survives. -/
theorem form_field_labels_short_witness :
    formPart longLabelForm = some (Component.form ["User Name"]) ∧
    ("User Name" : String).length < 50 :=
  ⟨by decide,
   form_field_labels_short longLabelForm ["User Name"] (by decide) "User Name"
     (by decide)⟩

/-! ## Claim C9: omission of empty optional fields -/

/-- C9 counterexample: for a page whose header contains no email or phone,
the emitted header structure contains the key contact with value null —
the empty optional field is present as null, not omitted. -/
theorem header_contact_null_counterexample :
    ("contact", JVal.jnull) ∈ extract_header (fun _ => []) (fun _ => []) soupHdr := by
  decide

/-- C9 (amended): every Footer field that ends up empty is omitted from
the footer structure (every emitted footer entry has a truthy value), but
the Header does not follow the omission rule for its contact field: when
no email or phone is found the key contact is present with a null value.
The claim as stated, covering the Header as well, is false: see
`header_contact_null_counterexample`. -/
theorem empty_fields_omission (domain : String) (fe fp : String → List String)
    (pats : List (String → Option String)) (soup : Node) (kv : String × JVal)
    (hkv : kv ∈ extract_footer domain fe fp pats soup) :
    truthy kv.2 = true ∧
    (∀ fe2 fp2 : String → List String, (∀ s, fe2 s = []) → (∀ s, fp2 s = []) →
      ("contact", JVal.jnull) ∈ extract_header fe2 fp2 soup) := by
  constructor
  · unfold extract_footer at hkv
    cases h : findFirst (isTag "footer") soup with
    | none =>
      rw [h] at hkv
      simp at hkv
    | some footer =>
      rw [h] at hkv
      exact (List.mem_filter.mp hkv).2
  · intro fe2 fp2 hfe hfp
    unfold extract_header
    cases h : headerEl soup with
    | none => simp
    | some header =>
      have hc : headerContactPairs fe2 fp2 header = [] := by
        unfold headerContactPairs
        simp [hfe, hfp]
      simp [hc]

/-- Witness discharging the hypotheses of `empty_fields_omission` at a
concrete footer entry, with the inner quantifiers instantiated at
extractors that find nothing. -/
theorem empty_fields_omission_witness :
    truthy (("footer_links", JVal.jarr ["About"]) : String × JVal).2 = true ∧
    ("contact", JVal.jnull) ∈ extract_header (fun _ => []) (fun _ => []) soupFtr :=
  ⟨(empty_fields_omission "example.com" (fun _ => []) (fun _ => []) [] soupFtr
      ("footer_links", JVal.jarr ["About"]) (by decide)).1,
   (empty_fields_omission "example.com" (fun _ => []) (fun _ => []) [] soupFtr
      ("footer_links", JVal.jarr ["About"]) (by decide)).2
     (fun _ => []) (fun _ => []) (fun _ => rfl) (fun _ => rfl)⟩

/-! ## Claim C4: content fingerprint and duplicate suppression -/

/-- C4: the fingerprint is the digest of the main-content (or fallback
body) raw text alone — the URL does not enter it — so two pages with
identical main-content text share the fingerprint; assembling them in
sequence keeps the first page (registering the fingerprint) and returns
nothing for the second, leaving the seen-set unchanged (the fingerprint is
registered only at its first occurrence). -/
theorem parse_page_dedup (md5h : String → String) (uj : String → String → String)
    (base_url domain u1 u2 : String) (s1 s2 : Node) (seen : Finset String)
    (m1 m2 : Node)
    (h1 : mainContentOf s1 = some m1) (h2 : mainContentOf s2 = some m2)
    (htext : getTextRaw m1 = getTextRaw m2)
    (hfresh : md5h (getTextRaw m1) ∉ seen) :
    (parse_page md5h uj base_url domain u1 s1 seen).1
        = some (buildPage uj base_url domain u1 s1) ∧
    (parse_page md5h uj base_url domain u1 s1 seen).2
        = insert (md5h (getTextRaw m1)) seen ∧
    (parse_page md5h uj base_url domain u2 s2
        (parse_page md5h uj base_url domain u1 s1 seen).2).1 = none ∧
    (parse_page md5h uj base_url domain u2 s2
        (parse_page md5h uj base_url domain u1 s1 seen).2).2
        = (parse_page md5h uj base_url domain u1 s1 seen).2 := by
  have e1 : parse_page md5h uj base_url domain u1 s1 seen
      = (some (buildPage uj base_url domain u1 s1), insert (md5h (getTextRaw m1)) seen) := by
    unfold parse_page
    rw [h1]
    show (if md5h (getTextRaw m1) ∈ seen then (none, seen)
      else (some (buildPage uj base_url domain u1 s1),
        insert (md5h (getTextRaw m1)) seen)) = _
    rw [if_neg hfresh]
  have hmem : md5h (getTextRaw m2) ∈ insert (md5h (getTextRaw m1)) seen := by
    rw [← htext]
    exact Finset.mem_insert_self _ _
  have e2 : parse_page md5h uj base_url domain u2 s2 (insert (md5h (getTextRaw m1)) seen)
      = (none, insert (md5h (getTextRaw m1)) seen) := by
    unfold parse_page
    rw [h2]
    show (if md5h (getTextRaw m2) ∈ insert (md5h (getTextRaw m1)) seen then
        (none, insert (md5h (getTextRaw m1)) seen)
      else (some (buildPage uj base_url domain u2 s2),
        insert (md5h (getTextRaw m2)) (insert (md5h (getTextRaw m1)) seen))) = _
    rw [if_pos hmem]
  refine ⟨by rw [e1], by rw [e1], ?_, ?_⟩
  · rw [e1]
    show (parse_page md5h uj base_url domain u2 s2 (insert (md5h (getTextRaw m1)) seen)).1
      = none
    rw [e2]
  · rw [e1]
    show (parse_page md5h uj base_url domain u2 s2 (insert (md5h (getTextRaw m1)) seen)).2
      = insert (md5h (getTextRaw m1)) seen
    rw [e2]

/-- Witness discharging the hypotheses of `parse_page_dedup` on two
concrete pages with identical main-content text and different URLs. -/
theorem parse_page_dedup_witness :
    (parse_page id (fun _ h => h) "https://x.com" "x.com" "https://x.com/p1" soupPg1
      ∅).1.isSome = true ∧
    (parse_page id (fun _ h => h) "https://x.com" "x.com" "https://x.com/p2" soupPg2
      (parse_page id (fun _ h => h) "https://x.com" "x.com" "https://x.com/p1" soupPg1
        ∅).2).1 = none := by
  have H := parse_page_dedup id (fun _ h => h) "https://x.com" "x.com" "https://x.com/p1"
    "https://x.com/p2" soupPg1 soupPg2 ∅
    (Node.elem "main" [] [Node.text "Hello duplicate page"])
    (Node.elem "main" [("id", "other")] [Node.text "Hello duplicate page"])
    rfl rfl rfl (by decide)
  refine ⟨?_, H.2.2.1⟩
  rw [H.1]
  rfl

/-! ## Frontier lemmas -/

theorem enqueueAll_inv {st : FrontierState} (hI : FrontierInv st) (ls : List String) :
    FrontierInv (enqueueAll st ls) := by
  induction ls generalizing st with
  | nil => exact hI
  | cons l ls ih =>
    unfold enqueueAll
    by_cases hl : l ∈ st.allUrls
    · rw [if_pos hl]
      exact ih hI
    · rw [if_neg hl]
      refine ih ?_
      constructor
      · intro u hu
        rcases List.mem_append.mp hu with h1 | h1
        · exact Finset.mem_insert_of_mem (hI.queue_sub u h1)
        · rw [List.mem_singleton.mp h1]
          exact Finset.mem_insert_self _ _
      · intro u hu
        exact Finset.mem_insert_of_mem (hI.visited_sub u hu)
      · rw [List.nodup_append]
        refine ⟨hI.queue_nodup, List.nodup_singleton l, ?_⟩
        intro u hu husing
        rw [List.mem_singleton.mp husing] at hu
        exact hl (hI.queue_sub l hu)
      · rw [List.nodup_append]
        refine ⟨hI.enq_nodup, List.nodup_singleton l, ?_⟩
        intro u hu husing
        rw [List.mem_singleton.mp husing] at hu
        exact hl (hI.enq_sub l hu)
      · intro u hu
        rcases List.mem_append.mp hu with h1 | h1
        · exact Finset.mem_insert_of_mem (hI.enq_sub u h1)
        · rw [List.mem_singleton.mp h1]
          exact Finset.mem_insert_self _ _
      · exact hI.log_nodup
      · intro u hu
        exact Finset.mem_insert_of_mem (hI.log_sub u hu)
      · intro u hu hq
        rcases List.mem_append.mp hq with h1 | h1
        · exact hI.log_disj u hu h1
        · rw [List.mem_singleton.mp h1] at hu
          exact hl (hI.log_sub l hu)
      · intro u hu
        rcases Finset.mem_insert.mp hu with rfl | h1
        · exact List.mem_append_right _ (List.mem_singleton_self u)
        · exact List.mem_append_left _ (hI.enq_cover u h1)

theorem discoverStep_inv {st : FrontierState} (links : String → Option (List String))
    (hI : FrontierInv st) : FrontierInv (discoverStep links st) := by
  unfold discoverStep
  cases hq : st.queue with
  | nil => exact hI
  | cons url rest =>
    have hqu : url ∈ st.queue := by rw [hq]; exact List.mem_cons_self _ _
    have hrest : ∀ u ∈ rest, u ∈ st.queue := by
      intro u hu
      rw [hq]
      exact List.mem_cons_of_mem _ hu
    have hrnodup : rest.Nodup := by
      have h2 := hI.queue_nodup
      rw [hq] at h2
      exact h2.of_cons
    have hurl_rest : url ∉ rest := by
      have h2 := hI.queue_nodup
      rw [hq] at h2
      exact (List.nodup_cons.mp h2).1
    have hbase : FrontierInv ⟨st.allUrls, rest, st.visited, st.enqueued, st.flog⟩ := by
      constructor
      · exact fun u hu => hI.queue_sub u (hrest u hu)
      · exact hI.visited_sub
      · exact hrnodup
      · exact hI.enq_nodup
      · exact hI.enq_sub
      · exact hI.log_nodup
      · exact hI.log_sub
      · exact fun u hu hq2 => hI.log_disj u hu (hrest u hq2)
      · exact hI.enq_cover
    by_cases hv : url ∈ st.visited
    · simp only [if_pos hv]
      exact hbase
    · simp only [if_neg hv]
      have hlogged : FrontierInv ⟨st.allUrls, rest, st.visited, st.enqueued,
          st.flog ++ [url]⟩ := by
        constructor
        · exact hbase.queue_sub
        · exact hbase.visited_sub
        · exact hbase.queue_nodup
        · exact hbase.enq_nodup
        · exact hbase.enq_sub
        · rw [List.nodup_append]
          refine ⟨hI.log_nodup, List.nodup_singleton url, ?_⟩
          intro u hu husing
          rw [List.mem_singleton.mp husing] at hu
          exact hI.log_disj url hu hqu
        · intro u hu
          rcases List.mem_append.mp hu with h1 | h1
          · exact hI.log_sub u h1
          · rw [List.mem_singleton.mp h1]
            exact hI.queue_sub url hqu
        · intro u hu hq2
          rcases List.mem_append.mp hu with h1 | h1
          · exact hI.log_disj u h1 (hrest u hq2)
          · rw [List.mem_singleton.mp h1] at hq2
            exact hurl_rest hq2
        · exact hI.enq_cover
      cases hlk : links url with
      | none => exact hlogged
      | some ls =>
        refine enqueueAll_inv ?_ ls
        constructor
        · exact hlogged.queue_sub
        · intro u hu
          rcases Finset.mem_insert.mp hu with rfl | h1
          · exact hI.queue_sub u hqu
          · exact hI.visited_sub u h1
        · exact hlogged.queue_nodup
        · exact hlogged.enq_nodup
        · exact hlogged.enq_sub
        · exact hlogged.log_nodup
        · exact hlogged.log_sub
        · exact hlogged.log_disj
        · exact hlogged.enq_cover

theorem discoverLoop_inv {st : FrontierState} (links : String → Option (List String))
    (fuel : Nat) (hI : FrontierInv st) : FrontierInv (discoverLoop links fuel st).2 := by
  induction fuel generalizing st with
  | zero => exact hI
  | succ n ih =>
    unfold discoverLoop
    cases hq : st.queue with
    | nil => exact hI
    | cons url rest => exact ih (discoverStep_inv links hI)

theorem enqueueAll_count (ls : List String) : ∀ st : FrontierState,
    (enqueueAll st ls).queue.length + st.enqueued.length
      = (enqueueAll st ls).enqueued.length + st.queue.length := by
  induction ls with
  | nil =>
    intro st
    show st.queue.length + st.enqueued.length = st.enqueued.length + st.queue.length
    omega
  | cons l ls ih =>
    intro st
    unfold enqueueAll
    by_cases hl : l ∈ st.allUrls
    · rw [if_pos hl]
      exact ih st
    · rw [if_neg hl]
      have h2 := ih ⟨insert l st.allUrls, st.queue ++ [l], st.visited,
        st.enqueued ++ [l], st.flog⟩
      simp only [List.length_append, List.length_singleton] at h2
      omega

theorem discoverStep_count {st : FrontierState} (links : String → Option (List String))
    (url : String) (rest : List String) (hq : st.queue = url :: rest) :
    (discoverStep links st).enqueued.length + st.queue.length
      = st.enqueued.length + (discoverStep links st).queue.length + 1 := by
  unfold discoverStep
  rw [hq]
  by_cases hv : url ∈ st.visited
  · simp only [if_pos hv]
    simp [hq]
    omega
  · simp only [if_neg hv]
    cases hlk : links url with
    | none =>
      simp [hq]
      omega
    | some ls =>
      have h2 := enqueueAll_count ls ⟨st.allUrls, rest, insert url st.visited,
        st.enqueued, st.flog ++ [url]⟩
      simp only at h2
      simp only [List.length_cons]
      omega

theorem discoverLoop_count (links : String → Option (List String)) (fuel : Nat) :
    ∀ st : FrontierState,
    (discoverLoop links fuel st).2.enqueued.length + st.queue.length
      = st.enqueued.length + (discoverLoop links fuel st).2.queue.length
        + (discoverLoop links fuel st).1 := by
  induction fuel with
  | zero => intro st; simp [discoverLoop]
  | succ n ih =>
    intro st
    unfold discoverLoop
    cases hq : st.queue with
    | nil => simp [hq]
    | cons url rest =>
      have h1 := ih (discoverStep links st)
      have h2 := discoverStep_count links url rest hq
      rw [hq] at h2
      simp only [List.length_cons] at h2
      simp only [List.length_cons]
      omega

theorem enqueueAll_measure {U : Finset String} (ls : List String) :
    ∀ st : FrontierState, st.allUrls ⊆ U → (∀ x ∈ ls, x ∈ U) →
    (enqueueAll st ls).allUrls ⊆ U ∧ measureF U (enqueueAll st ls) = measureF U st := by
  induction ls with
  | nil => intro st hsub _; exact ⟨hsub, rfl⟩
  | cons l ls ih =>
    intro st hsub hls
    unfold enqueueAll
    by_cases hl : l ∈ st.allUrls
    · rw [if_pos hl]
      exact ih st hsub (fun x hx => hls x (List.mem_cons_of_mem l hx))
    · rw [if_neg hl]
      have hlU : l ∈ U := hls l (List.mem_cons_self _ _)
      have hsub2 : insert l st.allUrls ⊆ U := by
        intro x hx
        rcases Finset.mem_insert.mp hx with rfl | h1
        · exact hlU
        · exact hsub h1
      have hlt : st.allUrls.card < U.card := by
        refine Finset.card_lt_card ?_
        rw [Finset.ssubset_iff_of_subset hsub]
        exact ⟨l, hlU, hl⟩
      obtain ⟨h3, h4⟩ := ih ⟨insert l st.allUrls, st.queue ++ [l], st.visited,
        st.enqueued ++ [l], st.flog⟩ hsub2 (fun x hx => hls x (List.mem_cons_of_mem l hx))
      refine ⟨h3, ?_⟩
      rw [h4]
      unfold measureF
      simp only [List.length_append, List.length_singleton,
        Finset.card_insert_of_not_mem hl]
      omega

theorem discoverStep_measure {U : Finset String} {st : FrontierState}
    (links : String → Option (List String)) (url : String) (rest : List String)
    (hq : st.queue = url :: rest) (hsub : st.allUrls ⊆ U)
    (hLnk : ∀ u l, links u = some l → ∀ x ∈ l, x ∈ U) :
    (discoverStep links st).allUrls ⊆ U ∧
      measureF U (discoverStep links st) < measureF U st := by
  have hqlen : 0 < st.queue.length := by rw [hq]; simp
  unfold discoverStep
  rw [hq]
  by_cases hv : url ∈ st.visited
  · simp only [if_pos hv]
    refine ⟨hsub, ?_⟩
    unfold measureF
    rw [hq]
    simp only [List.length_cons]
    omega
  · simp only [if_neg hv]
    cases hlk : links url with
    | none =>
      refine ⟨hsub, ?_⟩
      unfold measureF
      rw [hq]
      simp only [List.length_cons]
      omega
    | some ls =>
      obtain ⟨h3, h4⟩ := enqueueAll_measure (U := U) ls
        ⟨st.allUrls, rest, insert url st.visited, st.enqueued, st.flog ++ [url]⟩
        hsub (hLnk url ls hlk)
      refine ⟨h3, ?_⟩
      rw [h4]
      unfold measureF
      rw [hq]
      simp only [List.length_cons]
      omega

theorem discoverLoop_term {U : Finset String} (links : String → Option (List String))
    (hLnk : ∀ u l, links u = some l → ∀ x ∈ l, x ∈ U) (fuel : Nat) :
    ∀ st : FrontierState, st.allUrls ⊆ U → measureF U st ≤ fuel →
    (discoverLoop links fuel st).2.queue = [] := by
  induction fuel with
  | zero =>
    intro st hsub hm
    unfold measureF at hm
    have h2 : st.queue.length = 0 := by omega
    exact List.length_eq_zero.mp h2
  | succ n ih =>
    intro st hsub hm
    unfold discoverLoop
    cases hq : st.queue with
    | nil => exact hq
    | cons url rest =>
      obtain ⟨h3, h4⟩ := discoverStep_measure links url rest hq hsub hLnk
      exact ih (discoverStep links st) h3 (by omega)

theorem discoverLoop_count_le {st : FrontierState} (links : String → Option (List String))
    (fuel : Nat) (hI : FrontierInv st) (hInit : st.enqueued = st.queue) :
    (discoverLoop links fuel st).1 ≤ (discoverLoop links fuel st).2.allUrls.card := by
  have hid := discoverLoop_count links fuel st
  have hI2 := discoverLoop_inv links fuel hI
  have hlen : (discoverLoop links fuel st).2.enqueued.length
      ≤ (discoverLoop links fuel st).2.allUrls.card := by
    have hsub : (discoverLoop links fuel st).2.enqueued.toFinset
        ⊆ (discoverLoop links fuel st).2.allUrls := by
      intro x hx
      exact hI2.enq_sub x (List.mem_toFinset.mp hx)
    calc (discoverLoop links fuel st).2.enqueued.length
        = (discoverLoop links fuel st).2.enqueued.toFinset.card :=
          (List.toFinset_card_of_nodup hI2.enq_nodup).symm
      _ ≤ _ := Finset.card_le_card hsub
  have heq : st.enqueued.length = st.queue.length := by rw [hInit]
  omega

/-- C3: throughout `discover_all_pages`, (i) no URL ever enters the
pending queue twice — the history of enqueued URLs is duplicate-free after
any number of iterations; (ii) the discovered set always contains the
visited set, so the discovered count bounds the visited count at every
step; (iii) when the links the oracle can return lie in a finite universe
`U`, the loop drains its queue within `measureF U` iterations; and (iv)
the number of iterations taken is bounded by the number of distinct
discovered URLs. -/
theorem discover_all_pages_invariants (links : String → Option (List String))
    (U : Finset String) (st : FrontierState) (hI : FrontierInv st)
    (hInit : st.enqueued = st.queue) (hsub : st.allUrls ⊆ U)
    (hLnk : ∀ u l, links u = some l → ∀ x ∈ l, x ∈ U) :
    (∀ fuel, ((discoverLoop links fuel st).2.enqueued).Nodup) ∧
    (∀ fuel, ((discoverLoop links fuel st).2.visited).card
        ≤ ((discoverLoop links fuel st).2.allUrls).card) ∧
    ((discoverLoop links (measureF U st) st).2.queue = []) ∧
    (∀ fuel, (discoverLoop links fuel st).1
        ≤ ((discoverLoop links fuel st).2.allUrls).card) := by
  refine ⟨?_, ?_, ?_, ?_⟩
  · intro fuel
    exact (discoverLoop_inv links fuel hI).enq_nodup
  · intro fuel
    refine Finset.card_le_card ?_
    intro x hx
    exact (discoverLoop_inv links fuel hI).visited_sub x hx
  · exact discoverLoop_term links hLnk (measureF U st) st hsub le_rfl
  · intro fuel
    exact discoverLoop_count_le links fuel hI hInit

/-- Witness discharging the hypotheses of `discover_all_pages_invariants`
on a one-URL frontier whose only fetch fails. -/
theorem discover_all_pages_invariants_witness :
    (((discoverLoop (fun _ => none)
        (measureF {"https://a.com"} wFrontier) wFrontier).2.queue = []) ∧
    (discoverLoop (fun _ => none) 1 wFrontier).1
      ≤ ((discoverLoop (fun _ => none) 1 wFrontier).2.allUrls).card) ∧
    ((discoverLoop (fun _ => none) 1 wFrontier).2.enqueued).Nodup := by
  have H := discover_all_pages_invariants (fun _ => none) {"https://a.com"} wFrontier
    (by constructor <;> decide) (by decide) (by decide)
    (fun u l h => Option.noConfusion h)
  exact ⟨⟨H.2.2.1, H.2.2.2 1⟩, H.1 1⟩

/-! ## Claim C8: how often each URL is fetched -/

theorem dedupKeys_not_mem_seen [DecidableEq α] (l : List α) :
    ∀ seen : List α, ∀ x ∈ dedupKeys seen l, x ∉ seen := by
  induction l with
  | nil =>
    intro seen x hx
    simp [dedupKeys] at hx
  | cons a as ih =>
    intro seen x hx
    unfold dedupKeys at hx
    by_cases h : a ∈ seen
    · rw [if_pos h] at hx
      exact ih seen x hx
    · rw [if_neg h] at hx
      rcases List.mem_cons.mp hx with rfl | h2
      · exact h
      · intro hxseen
        exact ih (a :: seen) x h2 (List.mem_cons_of_mem a hxseen)

theorem dedupKeys_nodup [DecidableEq α] (l : List α) :
    ∀ seen : List α, (dedupKeys seen l).Nodup := by
  induction l with
  | nil =>
    intro seen
    simp [dedupKeys]
  | cons a as ih =>
    intro seen
    unfold dedupKeys
    by_cases h : a ∈ seen
    · rw [if_pos h]
      exact ih seen
    · rw [if_neg h]
      refine List.nodup_cons.mpr ⟨?_, ih (a :: seen)⟩
      intro ha
      exact dedupKeys_not_mem_seen as (a :: seen) a ha (List.mem_cons_self a seen)

theorem dedupFirst_nodup [DecidableEq α] (l : List α) : (dedupFirst l).Nodup :=
  dedupKeys_nodup l []

theorem insertSorted_perm (a : String) (l : List String) :
    List.Perm (insertSorted a l) (a :: l) := by
  induction l with
  | nil => exact List.Perm.refl _
  | cons b bs ih =>
    unfold insertSorted
    by_cases h : a ≤ b
    · rw [if_pos h]
    · rw [if_neg h]
      exact List.Perm.trans (List.Perm.cons b ih) (List.Perm.swap a b bs)

theorem insSort_perm (l : List String) : List.Perm (insSort l) l := by
  induction l with
  | nil => exact List.Perm.refl _
  | cons a as ih =>
    exact List.Perm.trans (insertSorted_perm a (insSort as)) (List.Perm.cons a ih)

theorem initialFrontier_inv (base : String) (locs : List String) :
    FrontierInv (initialFrontier base locs) := by
  refine ⟨?_, ?_, ?_, ?_, ?_, ?_, ?_, ?_, ?_⟩
  · show ∀ u ∈ seedsList base locs, u ∈ (seedsList base locs).toFinset
    intro u hu
    exact List.mem_toFinset.mpr hu
  · show ∀ u ∈ (∅ : Finset String), u ∈ (seedsList base locs).toFinset
    intro u hu
    exact absurd hu (Finset.not_mem_empty u)
  · show (seedsList base locs).Nodup
    exact dedupFirst_nodup _
  · show (seedsList base locs).Nodup
    exact dedupFirst_nodup _
  · show ∀ u ∈ seedsList base locs, u ∈ (seedsList base locs).toFinset
    intro u hu
    exact List.mem_toFinset.mpr hu
  · show ([] : List String).Nodup
    exact List.nodup_nil
  · show ∀ u ∈ ([] : List String), u ∈ (seedsList base locs).toFinset
    intro u hu
    simp at hu
  · show ∀ u ∈ ([] : List String), u ∉ seedsList base locs
    intro u hu
    simp at hu
  · show ∀ u ∈ (seedsList base locs).toFinset, u ∈ seedsList base locs
    intro u hu
    exact List.mem_toFinset.mp hu

/-- C8 (amended): within each phase a URL is fetched at most once — the
discovery-phase fetch log is duplicate-free, and the assembly phase (the
tail of the run-phase log, after the single home-page fetch for global
extraction at its head) iterates the deduplicated discovered list, so its
log is duplicate-free as well; no retries happen anywhere.  Between the
phases the claim fails: a URL fetched during discovery is fetched again
during assembly, and the home page a third time — see
`fetch_twice_counterexample`. -/
theorem fetch_once_per_phase (fetch : String → Option Node) (md5h : String → String)
    (uj : String → String → String) (fe fp fpf : String → List String)
    (pats : List (String → Option String)) (fuel : Nat)
    (base : String) (locs : List String) :
    ((runModel fetch md5h uj fe fp fpf pats fuel base locs).discoveryLog).Nodup ∧
    ((runModel fetch md5h uj fe fp fpf pats fuel base locs).mainLog).tail.Nodup := by
  have hlog : (discoveryFetchLog fetch uj fuel base locs).Nodup :=
    (discoverLoop_inv (linksOracle fetch uj base) fuel
      (initialFrontier_inv base locs)).log_nodup
  have hdisc : (discoveredList fetch uj fuel base locs).Nodup :=
    ((insSort_perm _).nodup_iff).mpr
      (discoverLoop_inv (linksOracle fetch uj base) fuel
        (initialFrontier_inv base locs)).enq_nodup
  cases h : fetch base with
  | none =>
    constructor
    · simpa [runModel, h] using hlog
    · simp [runModel, h]
  | some hsoup =>
    constructor
    · simpa [runModel, h] using hlog
    · simpa [runModel, h] using hdisc

/-- C8 counterexample: in a run over a one-page site, the base URL is
passed to the fetch operation three times — once during frontier
traversal, once for global-component extraction, and once during page
assembly — refuting the claim that no URL is fetched a second time. -/
theorem fetch_twice_counterexample :
    ((runModel soloFetch id (fun _ h => h) (fun _ => []) (fun _ => []) (fun _ => [])
        [] 3 "https://a.com" []).discoveryLog
      ++ (runModel soloFetch id (fun _ h => h) (fun _ => []) (fun _ => []) (fun _ => [])
        [] 3 "https://a.com" []).mainLog).count "https://a.com" = 3 := by decide

/-! ## Claim C6: the fatal case and skipped fetch failures -/

theorem assemble_mem (fetch : String → Option Node) (md5h : String → String)
    (uj : String → String → String) (base domain : String) :
    ∀ (us : List String) (seen : Finset String) (pg : PageRec),
    pg ∈ assemble fetch md5h uj base domain us seen →
    ∃ u ∈ us, ∃ soup, fetch u = some soup ∧
      ∃ s2 : Finset String, (parse_page md5h uj base domain u soup s2).1 = some pg := by
  intro us
  induction us with
  | nil =>
    intro seen pg h
    simp [assemble] at h
  | cons u us ih =>
    intro seen pg h
    unfold assemble at h
    cases hf : fetch u with
    | none =>
      rw [hf] at h
      obtain ⟨v, hv, rest⟩ := ih seen pg h
      exact ⟨v, List.mem_cons_of_mem u hv, rest⟩
    | some soup =>
      have h2 : pg ∈ (match parse_page md5h uj base domain u soup seen with
          | (none, s2) => assemble fetch md5h uj base domain us s2
          | (some p, s2) => p :: assemble fetch md5h uj base domain us s2) := by
        rw [hf] at h
        exact h
      cases hp : parse_page md5h uj base domain u soup seen with
      | mk o seen2 =>
        rw [hp] at h2
        cases o with
        | none =>
          obtain ⟨v, hv, rest⟩ := ih seen2 pg h2
          exact ⟨v, List.mem_cons_of_mem u hv, rest⟩
        | some pg2 =>
          rcases List.mem_cons.mp h2 with rfl | h3
          · refine ⟨u, List.mem_cons_self u us, soup, hf, seen, ?_⟩
            rw [hp]
          · obtain ⟨v, hv, rest⟩ := ih seen2 pg h3
            exact ⟨v, List.mem_cons_of_mem u hv, rest⟩

/-- C6: the run produces the empty result (no website) exactly when the
home-page fetch fails; and a fetch failure of any other URL only skips
that URL — every page record of a produced website stems from a
discovered URL whose fetch succeeded and whose parse produced the record,
so failing URLs are dropped while assembly continues. -/
theorem run_fatal_iff (fetch : String → Option Node) (md5h : String → String)
    (uj : String → String → String) (fe fp fpf : String → List String)
    (pats : List (String → Option String)) (fuel : Nat)
    (base : String) (locs : List String) :
    ((runModel fetch md5h uj fe fp fpf pats fuel base locs).website = none
      ↔ fetch base = none) ∧
    ∀ pg ∈ pagesOf (runModel fetch md5h uj fe fp fpf pats fuel base locs),
      ∃ u ∈ (runModel fetch md5h uj fe fp fpf pats fuel base locs).discovered,
        ∃ soup, fetch u = some soup ∧
          ∃ seen : Finset String,
            (parse_page md5h uj base (ofChars (urlparse base).netloc) u soup seen).1
              = some pg := by
  cases h : fetch base with
  | none =>
    constructor
    · simp [runModel, h]
    · intro pg hpg
      simp [runModel, h, pagesOf] at hpg
  | some hsoup =>
    constructor
    · simp [runModel, h]
    · intro pg hpg
      have hpg2 : pg ∈ assemble fetch md5h uj base (ofChars (urlparse base).netloc)
          (discoveredList fetch uj fuel base locs) ∅ := by
        simpa [runModel, h, pagesOf] using hpg
      obtain ⟨u, hu, soup, hfu, s2, hps⟩ := assemble_mem fetch md5h uj base
        (ofChars (urlparse base).netloc) (discoveredList fetch uj fuel base locs) ∅ pg hpg2
      refine ⟨u, ?_, soup, hfu, s2, hps⟩
      simpa [runModel, h] using hu
